import Mathlib

/-!
Verification of the multipart upload writer in
src/core/src/raw/oio/write/multipart_write.rs.

The embedding models the writer state machine (MultipartWriter), the part-task
wrapper (WritePartFuture) and the three poll entry points (poll_write,
poll_close, poll_abort).  Backend calls are resolved through an oracle
(Nat -> Reply) that decides, for each awaited backend operation in program
order, whether it succeeds (carrying the returned string: an upload id for
initiate_part, an etag for write_part) or fails with an error code.  Every
awaited backend operation is also recorded in a trace of Call events, tagged
with its success flag.

The source is a poll-based future; since the writer is driven by a single
logical caller and the ordered queue reports results strictly in submission
order, a pending suspension (Poll::Pending) only delays the very same
resumption, so the embedding resolves each awaited future at its await point
using the oracle.  Rust panics (unreachable!, expect, assert!, and polling an
already-completed future) are modelled as the Res.panicked results.
-/

namespace Opendal

/-- Bytes of a chunk; oio::ChunkedBytes is modelled as the list of its bytes. -/
abbrev Chunk := List Nat

/-- Result of MultipartWrite::write_part (multipart_write.rs, MultipartPart). -/
structure MultipartPart where
  part_number : Nat
  etag : String
deriving DecidableEq

/-- Body of a backend upload call (AsyncBody::Empty / AsyncBody::ChunkedBytes). -/
inductive AsyncBody where
  | Empty : AsyncBody
  | ChunkedBytes : Chunk → AsyncBody
deriving DecidableEq

/-- Outcome of one awaited backend operation: success carries the string the
backend returns (upload id for initiate_part, etag for write_part, ignored by
the others); failure carries an opaque error code. -/
inductive Reply where
  | success : String → Reply
  | failure : Nat → Reply
deriving DecidableEq

def Reply.isSuccess : Reply → Bool
  | .success _ => true
  | .failure _ => false

/-- The environment: the outcome of the n-th awaited backend call of a run. -/
abbrev Oracle := Nat → Reply

/-- A backend call event as observed by the service implementation, together
with whether that call succeeded. -/
inductive Call where
  | write_once : Nat → AsyncBody → Bool → Call
  | initiate_part : Bool → Call
  | write_part : String → Nat → Nat → AsyncBody → Bool → Call
  | complete_part : String → List MultipartPart → Bool → Call
  | abort_part : String → Bool → Call
deriving DecidableEq

/-- WritePartFuture::new captures the shared writer handle, the upload id, the
part number and the chunk; its failure output carries (part_number, bytes, err)
so the caller can rebuild the task (multipart_write.rs lines 143-163). -/
structure WritePartFuture where
  upload_id : String
  part_number : Nat
  bytes : Chunk
deriving DecidableEq

/-- Writer state between two polls.  Idle is State::Idle.  InitSpent models the
state after the State::Init future completed with an error: the question-mark
on line 275 returns before the state is reset, so State::Init still holds the
already-completed initiate_part future. -/
inductive WState where
  | Idle
  | InitSpent
deriving DecidableEq

/-- Rust panics of the source, distinguished so theorems can talk about a
specific assertion.  fuelOut is an artifact of the fueled loops and is
unreachable for the fuel the poll wrappers supply; emptyQueuePoll marks the
spin that poll_next on an empty queue at zero capacity would be (unreachable
because capacity is at least 1). -/
inductive PanicKind where
  | resumedAfterCompletion
  | pendingWriteMustExist
  | cacheOccupied
  | unreachableInit
  | emptyQueuePoll
  | fuelOut
deriving DecidableEq

/-- Outcome of one public operation: Ok value, recoverable Err (error code), or
a Rust panic. -/
inductive Res (α : Type) where
  | ok : α → Res α
  | err : Nat → Res α
  | panicked : PanicKind → Res α
deriving DecidableEq

/-- MultipartWriter's fields (multipart_write.rs lines 167-176) plus the state
enum and the queue capacity of ConcurrentFutures. -/
structure Writer where
  state : WState
  upload_id : Option String
  parts : List MultipartPart
  cache : Option Chunk
  futures : List WritePartFuture
  next_part_number : Nat
  capacity : Nat
deriving DecidableEq

/-- MultipartWriter::new (lines 196-207): queue capacity is 1.max(concurrent). -/
def Writer.new (concurrent : Nat) : Writer :=
  { state := .Idle
    upload_id := none
    parts := []
    cache := none
    futures := []
    next_part_number := 0
    capacity := Nat.max 1 concurrent }

/-- MultipartWriter::fill_cache (lines 209-216): copies the caller's bytes into
the single slot; assert!(self.cache.is_none()) is the cacheOccupied panic. -/
def Writer.fill_cache (w : Writer) (bs : Chunk) : Res (Nat × Writer) :=
  if w.cache.isSome then .panicked .cacheOccupied
  else .ok (bs.length, { w with cache := some bs })

/-- Modelled from the spec: ConcurrentFutures (the ordered bounded-concurrency
task queue) is code of this repository that is not under src/; per spec
section 4.3 its has_remaining() reports whether fewer than capacity tasks are
queued, push_back/push_front add at the tail/head, poll_next yields the head
task's result in strict submission order, and clear drops all tasks. -/
def Writer.hasRemaining (w : Writer) : Bool := w.futures.length < w.capacity

/-- Outcome of one iteration of a source loop: either the operation returns
(ret) or the loop continues with an updated writer (next).  Both carry the
backend calls awaited during the iteration. -/
inductive Step (α : Type) where
  | ret : Res α → Writer → Nat → List Call → Step α
  | next : Writer → Nat → List Call → Step α

/-- One iteration of the loop in poll_write (lines 222-286).  In State::Idle
with an upload id: if the queue has remaining capacity, take the cached chunk
(expect "pending write must exist"), dispatch it as the next part and accept
the new bytes into the cache; otherwise await the head task, appending its
part on success (loop) or re-queuing a fresh task at the head and returning
the error on failure.  Without an upload id: fill the empty cache and accept,
or await initiate_part; on its failure the question-mark leaves State::Init
holding the spent future (InitSpent). -/
def writeStep (w : Writer) (bs : Chunk) (o : Oracle) (k : Nat) : Step Nat :=
  match w.state with
  | .InitSpent => .ret (.panicked .resumedAfterCompletion) w k []
  | .Idle =>
    match w.upload_id with
    | some uid =>
      if w.hasRemaining then
        match w.cache with
        | none => .ret (.panicked .pendingWriteMustExist) w k []
        | some c =>
          let w1 : Writer :=
            { w with cache := none
                     futures := w.futures ++ [⟨uid, w.next_part_number, c⟩]
                     next_part_number := w.next_part_number + 1 }
          match w1.fill_cache bs with
          | .ok sw => .ret (.ok sw.1) sw.2 k []
          | .err e => .ret (.err e) w1 k []
          | .panicked p => .ret (.panicked p) w1 k []
      else
        match w.futures with
        | [] => .ret (.panicked .emptyQueuePoll) w k []
        | hd :: t =>
          match o k with
          | .success etag =>
            .next { w with parts := w.parts ++ [⟨hd.part_number, etag⟩], futures := t } (k + 1)
              [Call.write_part hd.upload_id hd.part_number hd.bytes.length
                (.ChunkedBytes hd.bytes) true]
          | .failure e =>
            .ret (.err e) { w with futures := ⟨uid, hd.part_number, hd.bytes⟩ :: t } (k + 1)
              [Call.write_part hd.upload_id hd.part_number hd.bytes.length
                (.ChunkedBytes hd.bytes) false]
    | none =>
      if w.cache.isNone then
        match w.fill_cache bs with
        | .ok sw => .ret (.ok sw.1) sw.2 k []
        | .err e => .ret (.err e) w k []
        | .panicked p => .ret (.panicked p) w k []
      else
        match o k with
        | .success uid2 => .next { w with upload_id := some uid2 } (k + 1) [Call.initiate_part true]
        | .failure e => .ret (.err e) { w with state := .InitSpent } (k + 1) [Call.initiate_part false]

/-- Fueled driver of the poll_write loop.  The fuel the poll_write wrapper
supplies always exceeds the possible number of iterations. -/
def writeGo : Nat → Writer → Chunk → Oracle → Nat → Res Nat × Writer × Nat × List Call
  | 0, w, _, _, k => (.panicked .fuelOut, w, k, [])
  | fuel + 1, w, bs, o, k =>
    match writeStep w bs o k with
    | .ret r w2 k2 tr => (r, w2, k2, tr)
    | .next w2 k2 tr =>
      let out := writeGo fuel w2 bs o k2
      (out.1, out.2.1, out.2.2.1, tr ++ out.2.2.2)

/-- MultipartWriter::poll_write (lines 222-286).  A writer left in State::Init
by a failed initiate_part polls the spent future again, which panics. -/
def Writer.poll_write (w : Writer) (bs : Chunk) (o : Oracle) (k : Nat) :
    Res Nat × Writer × Nat × List Call :=
  writeGo (w.futures.length + 3) w bs o k

/-- The drain-or-skip that opens a poll_close iteration when an upload id
exists and queue plus cache are not both empty (lines 306-319): if the queue
has remaining capacity and a chunk is cached, push it as the final task. -/
def drainPush (w : Writer) (uid : String) : Writer :=
  if w.hasRemaining then
    match w.cache with
    | some c =>
      { w with cache := none
               futures := w.futures ++ [⟨uid, w.next_part_number, c⟩]
               next_part_number := w.next_part_number + 1 }
    | none => w
  else w

/-- One iteration of the loop in poll_close (lines 288-368).  With an upload
id: once the queue is empty and the cache is consumed, await complete_part
(state goes State::Close and back to Idle; the cache is cleared only after the
result is checked); otherwise push the cached chunk if possible and await the
head task exactly as poll_write does.  Without an upload id: await write_once
with the cached chunk, or with size 0 and an empty body. -/
def closeStep (w : Writer) (o : Oracle) (k : Nat) : Step Unit :=
  match w.upload_id with
  | some uid =>
    if w.futures = [] ∧ w.cache = none then
      match o k with
      | .success _ =>
        .ret (.ok ()) { w with cache := none } (k + 1) [Call.complete_part uid w.parts true]
      | .failure e => .ret (.err e) w (k + 1) [Call.complete_part uid w.parts false]
    else
      let w1 := drainPush w uid
      match w1.futures with
      | [] => .ret (.panicked .emptyQueuePoll) w1 k []
      | hd :: t =>
        match o k with
        | .success etag =>
          .next { w1 with parts := w1.parts ++ [⟨hd.part_number, etag⟩], futures := t } (k + 1)
            [Call.write_part hd.upload_id hd.part_number hd.bytes.length
              (.ChunkedBytes hd.bytes) true]
        | .failure e =>
          .ret (.err e) { w1 with futures := ⟨uid, hd.part_number, hd.bytes⟩ :: t } (k + 1)
            [Call.write_part hd.upload_id hd.part_number hd.bytes.length
              (.ChunkedBytes hd.bytes) false]
  | none =>
    match w.cache with
    | some c =>
      match o k with
      | .success _ =>
        .ret (.ok ()) { w with cache := none } (k + 1)
          [Call.write_once c.length (.ChunkedBytes c) true]
      | .failure e =>
        .ret (.err e) w (k + 1) [Call.write_once c.length (.ChunkedBytes c) false]
    | none =>
      match o k with
      | .success _ => .ret (.ok ()) { w with cache := none } (k + 1) [Call.write_once 0 .Empty true]
      | .failure e => .ret (.err e) w (k + 1) [Call.write_once 0 .Empty false]

/-- Fueled driver of the poll_close loop. -/
def closeGo : Nat → Writer → Oracle → Nat → Res Unit × Writer × Nat × List Call
  | 0, w, _, k => (.panicked .fuelOut, w, k, [])
  | fuel + 1, w, o, k =>
    match closeStep w o k with
    | .ret r w2 k2 tr => (r, w2, k2, tr)
    | .next w2 k2 tr =>
      let out := closeGo fuel w2 o k2
      (out.1, out.2.1, out.2.2.1, tr ++ out.2.2.2)

/-- MultipartWriter::poll_close (lines 288-368).  State::Init during poll_close
is the unreachable! on line 361. -/
def Writer.poll_close (w : Writer) (o : Oracle) (k : Nat) :
    Res Unit × Writer × Nat × List Call :=
  match w.state with
  | .InitSpent => (.panicked .unreachableInit, w, k, [])
  | .Idle => closeGo (w.futures.length + 3) w o k

/-- MultipartWriter::poll_abort (lines 370-401): with an upload id, clear the
queue without awaiting the tasks and await abort_part, resetting the state to
Idle whatever its result; without one, succeed with no backend call. -/
def Writer.poll_abort (w : Writer) (o : Oracle) (k : Nat) :
    Res Unit × Writer × Nat × List Call :=
  match w.state with
  | .InitSpent => (.panicked .unreachableInit, w, k, [])
  | .Idle =>
    match w.upload_id with
    | some uid =>
      match o k with
      | .success _ => (.ok (), { w with futures := [] }, k + 1, [Call.abort_part uid true])
      | .failure e => (.err e, { w with futures := [] }, k + 1, [Call.abort_part uid false])
    | none => (.ok (), w, k, [])

/-- Caller loop: re-invoke write with the same bytes until it succeeds, as the
source test does; gives up (none) on a panic or when fuel runs out. -/
def driveWrite : Nat → Writer → Chunk → Oracle → Nat → Option (Writer × Nat × List Call)
  | 0, _, _, _, _ => none
  | fuel + 1, w, bs, o, k =>
    match w.poll_write bs o k with
    | (.ok _, w2, k2, tr) => some (w2, k2, tr)
    | (.err _, w2, k2, tr) =>
      match driveWrite fuel w2 bs o k2 with
      | some (w3, k3, tr2) => some (w3, k3, tr ++ tr2)
      | none => none
    | (.panicked _, _, _, _) => none

/-- Caller loop: write each chunk in order, retrying each until accepted. -/
def driveWrites : Nat → Writer → List Chunk → Oracle → Nat → Option (Writer × Nat × List Call)
  | _, w, [], _, k => some (w, k, [])
  | fuel, w, bs :: rest, o, k =>
    match driveWrite fuel w bs o k with
    | some (w2, k2, tr) =>
      match driveWrites fuel w2 rest o k2 with
      | some (w3, k3, tr2) => some (w3, k3, tr ++ tr2)
      | none => none
    | none => none

/-- Caller loop: re-invoke close until it succeeds. -/
def driveClose : Nat → Writer → Oracle → Nat → Option (Writer × Nat × List Call)
  | 0, _, _, _ => none
  | fuel + 1, w, o, k =>
    match w.poll_close o k with
    | (.ok _, w2, k2, tr) => some (w2, k2, tr)
    | (.err _, w2, k2, tr) =>
      match driveClose fuel w2 o k2 with
      | some (w3, k3, tr2) => some (w3, k3, tr ++ tr2)
      | none => none
    | (.panicked _, _, _, _) => none

/-- A full run: a fresh writer, the given writes (each retried until accepted),
then close (retried until it succeeds). -/
def driveRun (fuel concurrent : Nat) (cs : List Chunk) (o : Oracle) :
    Option (Writer × Nat × List Call) :=
  match driveWrites fuel (Writer.new concurrent) cs o 0 with
  | some (w, k, tr) =>
    match driveClose fuel w o k with
    | some (w2, k2, tr2) => some (w2, k2, tr ++ tr2)
    | none => none
  | none => none

/-- Bytes a call event contributes to the successful upload total. -/
def callOkBytes : Call → Nat
  | .write_part _ _ size _ true => size
  | .write_once size _ true => size
  | _ => 0

/-- Sum of the sizes of all successful write_part and write_once calls. -/
def okBytes (tr : List Call) : Nat := (tr.map callOkBytes).sum

/-- Total size of a list of write payloads. -/
def totalBytes (cs : List Chunk) : Nat := (cs.map List.length).sum

/-- Bytes held by the writer: queued part tasks plus the cached chunk. -/
def Writer.pendBytes (w : Writer) : Nat :=
  (w.futures.map (fun f => f.bytes.length)).sum +
    (match w.cache with | some c => c.length | none => 0)

/-- Chunks held by the writer: queued part tasks plus the cached chunk. -/
def Writer.pendCount (w : Writer) : Nat :=
  w.futures.length + (match w.cache with | some _ => 1 | none => 0)

/-- Chunks accepted so far: completed parts plus chunks still held. -/
def Writer.credit (w : Writer) : Nat := w.parts.length + w.pendCount

/-- The ordering invariant of the writer: completed parts carry the part
numbers 0..parts.length in order, the queued tasks continue that range in
submission order, and next_part_number is the next unused number. -/
def OrderInv (w : Writer) : Prop :=
  w.parts.map MultipartPart.part_number = List.range w.parts.length
  ∧ w.futures.map WritePartFuture.part_number = List.range' w.parts.length w.futures.length
  ∧ w.next_part_number = w.parts.length + w.futures.length

/-- Writer states reachable through any sequence of the three public
operations, under any payloads and any backend outcomes. -/
inductive Reachable (concurrent : Nat) : Writer → Prop where
  | new : Reachable concurrent (Writer.new concurrent)
  | write (w : Writer) (bs : Chunk) (o : Oracle) (k : Nat) :
      Reachable concurrent w → Reachable concurrent (w.poll_write bs o k).2.1
  | close (w : Writer) (o : Oracle) (k : Nat) :
      Reachable concurrent w → Reachable concurrent (w.poll_close o k).2.1
  | abort (w : Writer) (o : Oracle) (k : Nat) :
      Reachable concurrent w → Reachable concurrent (w.poll_abort o k).2.1

/-- Writer states reachable through write calls alone, which is where every
write call of a contract-respecting caller happens (write is never invoked
after close or abort). -/
inductive WriteReachable (concurrent : Nat) : Writer → Prop where
  | new : WriteReachable concurrent (Writer.new concurrent)
  | write (w : Writer) (bs : Chunk) (o : Oracle) (k : Nat) :
      WriteReachable concurrent w → WriteReachable concurrent (w.poll_write bs o k).2.1

/-- The single-slot invariant of the write phase: whenever an upload session
exists, the cache slot is occupied. -/
def CacheInv (w : Writer) : Prop := w.upload_id.isSome → w.cache.isSome

/-- A concrete backend environment used to exercise the end-to-end theorems:
the second, fifth and seventh awaited backend calls fail, all others
succeed. -/
def witnessOracle : Oracle := fun k =>
  if k = 1 ∨ k = 4 ∨ k = 6 then Reply.failure 7 else Reply.success "e"

end Opendal

namespace Opendal

/-! Step characterizations: each loop iteration of poll_write / poll_close is
one of finitely many concrete scenarios. -/

theorem writeStep_eq (w : Writer) (bs : Chunk) (o : Oracle) (k : Nat) :
    (w.state = .InitSpent ∧ writeStep w bs o k = .ret (.panicked .resumedAfterCompletion) w k [])
  ∨ (∃ uid, w.state = .Idle ∧ w.upload_id = some uid ∧ w.futures.length < w.capacity ∧
      w.cache = none ∧ writeStep w bs o k = .ret (.panicked .pendingWriteMustExist) w k [])
  ∨ (∃ uid c, w.state = .Idle ∧ w.upload_id = some uid ∧ w.futures.length < w.capacity ∧
      w.cache = some c ∧
      writeStep w bs o k = .ret (.ok bs.length)
        { w with cache := some bs
                 futures := w.futures ++ [⟨uid, w.next_part_number, c⟩]
                 next_part_number := w.next_part_number + 1 } k [])
  ∨ (∃ uid, w.state = .Idle ∧ w.upload_id = some uid ∧ ¬ w.futures.length < w.capacity ∧
      w.futures = [] ∧ writeStep w bs o k = .ret (.panicked .emptyQueuePoll) w k [])
  ∨ (∃ uid hd t etag, w.state = .Idle ∧ w.upload_id = some uid ∧
      ¬ w.futures.length < w.capacity ∧ w.futures = hd :: t ∧ o k = .success etag ∧
      writeStep w bs o k =
        .next { w with parts := w.parts ++ [⟨hd.part_number, etag⟩], futures := t } (k + 1)
          [Call.write_part hd.upload_id hd.part_number hd.bytes.length
            (.ChunkedBytes hd.bytes) true])
  ∨ (∃ uid hd t e, w.state = .Idle ∧ w.upload_id = some uid ∧
      ¬ w.futures.length < w.capacity ∧ w.futures = hd :: t ∧ o k = .failure e ∧
      writeStep w bs o k =
        .ret (.err e) { w with futures := ⟨uid, hd.part_number, hd.bytes⟩ :: t } (k + 1)
          [Call.write_part hd.upload_id hd.part_number hd.bytes.length
            (.ChunkedBytes hd.bytes) false])
  ∨ (w.state = .Idle ∧ w.upload_id = none ∧ w.cache = none ∧
      writeStep w bs o k = .ret (.ok bs.length) { w with cache := some bs } k [])
  ∨ (∃ c uid2, w.state = .Idle ∧ w.upload_id = none ∧ w.cache = some c ∧ o k = .success uid2 ∧
      writeStep w bs o k = .next { w with upload_id := some uid2 } (k + 1) [Call.initiate_part true])
  ∨ (∃ c e, w.state = .Idle ∧ w.upload_id = none ∧ w.cache = some c ∧ o k = .failure e ∧
      writeStep w bs o k = .ret (.err e) { w with state := .InitSpent } (k + 1)
        [Call.initiate_part false]) := by
  cases hst : w.state with
  | InitSpent => exact Or.inl ⟨rfl, by simp [writeStep, hst]⟩
  | Idle =>
    cases hu : w.upload_id with
    | some uid =>
      by_cases hlt : w.futures.length < w.capacity
      · cases hc : w.cache with
        | none =>
          exact Or.inr (Or.inl ⟨uid, rfl, rfl, hlt, rfl,
            by simp [writeStep, hst, hu, hc, Writer.hasRemaining, hlt]⟩)
        | some c =>
          refine Or.inr (Or.inr (Or.inl ⟨uid, c, rfl, rfl, hlt, rfl, ?_⟩))
          simp [writeStep, hst, hu, hc, Writer.hasRemaining, hlt, Writer.fill_cache]
      · cases hf : w.futures with
        | nil =>
          have hcap : w.capacity = 0 := by
            rw [hf] at hlt
            simp at hlt
            omega
          exact Or.inr (Or.inr (Or.inr (Or.inl ⟨uid, rfl, rfl, hf ▸ hlt, rfl,
            by simp [writeStep, hst, hu, hf, Writer.hasRemaining, hcap]⟩)))
        | cons hd t =>
          have hlt2 : ¬ t.length + 1 < w.capacity := by
            rw [hf] at hlt
            simpa using hlt
          cases hok : o k with
          | success etag =>
            refine Or.inr (Or.inr (Or.inr (Or.inr (Or.inl
              ⟨uid, hd, t, etag, rfl, rfl, hf ▸ hlt, rfl, rfl, ?_⟩))))
            simp [writeStep, hst, hu, hf, Writer.hasRemaining, hlt2, hok]
          | failure e =>
            refine Or.inr (Or.inr (Or.inr (Or.inr (Or.inr (Or.inl
              ⟨uid, hd, t, e, rfl, rfl, hf ▸ hlt, rfl, rfl, ?_⟩)))))
            simp [writeStep, hst, hu, hf, Writer.hasRemaining, hlt2, hok]
    | none =>
      cases hc : w.cache with
      | none =>
        refine Or.inr (Or.inr (Or.inr (Or.inr (Or.inr (Or.inr (Or.inl ⟨rfl, rfl, rfl, ?_⟩))))))
        simp [writeStep, hst, hu, hc, Writer.fill_cache]
      | some c =>
        cases hok : o k with
        | success uid2 =>
          refine Or.inr (Or.inr (Or.inr (Or.inr (Or.inr (Or.inr (Or.inr (Or.inl
            ⟨c, uid2, rfl, rfl, rfl, rfl, ?_⟩)))))))
          simp [writeStep, hst, hu, hc, hok]
        | failure e =>
          refine Or.inr (Or.inr (Or.inr (Or.inr (Or.inr (Or.inr (Or.inr (Or.inr
            ⟨c, e, rfl, rfl, rfl, rfl, ?_⟩)))))))
          simp [writeStep, hst, hu, hc, hok]

theorem drainPush_spec (w : Writer) (uid : String) :
    (∃ c, w.futures.length < w.capacity ∧ w.cache = some c ∧
      drainPush w uid =
        { w with cache := none
                 futures := w.futures ++ [⟨uid, w.next_part_number, c⟩]
                 next_part_number := w.next_part_number + 1 })
  ∨ ((¬ w.futures.length < w.capacity ∨ w.cache = none) ∧ drainPush w uid = w) := by
  by_cases hlt : w.futures.length < w.capacity
  · cases hc : w.cache with
    | none => exact Or.inr ⟨Or.inr rfl, by simp [drainPush, Writer.hasRemaining, hlt, hc]⟩
    | some c =>
      exact Or.inl ⟨c, hlt, rfl, by simp [drainPush, Writer.hasRemaining, hlt, hc]⟩
  · exact Or.inr ⟨Or.inl hlt, by simp [drainPush, Writer.hasRemaining, hlt]⟩

theorem closeStep_eq (w : Writer) (o : Oracle) (k : Nat) :
    (∃ uid s, w.upload_id = some uid ∧ w.futures = [] ∧ w.cache = none ∧ o k = .success s ∧
      closeStep w o k =
        .ret (.ok ()) { w with cache := none } (k + 1) [Call.complete_part uid w.parts true])
  ∨ (∃ uid e, w.upload_id = some uid ∧ w.futures = [] ∧ w.cache = none ∧ o k = .failure e ∧
      closeStep w o k = .ret (.err e) w (k + 1) [Call.complete_part uid w.parts false])
  ∨ (∃ uid, w.upload_id = some uid ∧ ¬ (w.futures = [] ∧ w.cache = none) ∧
      (drainPush w uid).futures = [] ∧
      closeStep w o k = .ret (.panicked .emptyQueuePoll) (drainPush w uid) k [])
  ∨ (∃ uid hd t etag, w.upload_id = some uid ∧ ¬ (w.futures = [] ∧ w.cache = none) ∧
      (drainPush w uid).futures = hd :: t ∧ o k = .success etag ∧
      closeStep w o k =
        .next { drainPush w uid with
                  parts := (drainPush w uid).parts ++ [⟨hd.part_number, etag⟩]
                  futures := t } (k + 1)
          [Call.write_part hd.upload_id hd.part_number hd.bytes.length
            (.ChunkedBytes hd.bytes) true])
  ∨ (∃ uid hd t e, w.upload_id = some uid ∧ ¬ (w.futures = [] ∧ w.cache = none) ∧
      (drainPush w uid).futures = hd :: t ∧ o k = .failure e ∧
      closeStep w o k =
        .ret (.err e) { drainPush w uid with futures := ⟨uid, hd.part_number, hd.bytes⟩ :: t }
          (k + 1)
          [Call.write_part hd.upload_id hd.part_number hd.bytes.length
            (.ChunkedBytes hd.bytes) false])
  ∨ (∃ c s, w.upload_id = none ∧ w.cache = some c ∧ o k = .success s ∧
      closeStep w o k = .ret (.ok ()) { w with cache := none } (k + 1)
        [Call.write_once c.length (.ChunkedBytes c) true])
  ∨ (∃ c e, w.upload_id = none ∧ w.cache = some c ∧ o k = .failure e ∧
      closeStep w o k = .ret (.err e) w (k + 1)
        [Call.write_once c.length (.ChunkedBytes c) false])
  ∨ (∃ s, w.upload_id = none ∧ w.cache = none ∧ o k = .success s ∧
      closeStep w o k = .ret (.ok ()) { w with cache := none } (k + 1)
        [Call.write_once 0 .Empty true])
  ∨ (∃ e, w.upload_id = none ∧ w.cache = none ∧ o k = .failure e ∧
      closeStep w o k = .ret (.err e) w (k + 1) [Call.write_once 0 .Empty false]) := by
  cases hu : w.upload_id with
  | some uid =>
    by_cases hemp : w.futures = [] ∧ w.cache = none
    · cases hok : o k with
      | success s =>
        exact Or.inl ⟨uid, s, rfl, hemp.1, hemp.2, rfl,
          by simp [closeStep, hu, hemp.1, hemp.2, hok]⟩
      | failure e =>
        exact Or.inr (Or.inl ⟨uid, e, rfl, hemp.1, hemp.2, rfl,
          by simp [closeStep, hu, hemp.1, hemp.2, hok]⟩)
    · cases hf : (drainPush w uid).futures with
      | nil =>
        refine Or.inr (Or.inr (Or.inl ⟨uid, rfl, hemp, hf, ?_⟩))
        simp [closeStep, hu, hemp, hf]
      | cons hd t =>
        cases hok : o k with
        | success etag =>
          refine Or.inr (Or.inr (Or.inr (Or.inl ⟨uid, hd, t, etag, rfl, hemp, hf, rfl, ?_⟩)))
          simp [closeStep, hu, hemp, hf, hok]
        | failure e =>
          refine Or.inr (Or.inr (Or.inr (Or.inr (Or.inl
            ⟨uid, hd, t, e, rfl, hemp, hf, rfl, ?_⟩))))
          simp [closeStep, hu, hemp, hf, hok]
  | none =>
    cases hc : w.cache with
    | some c =>
      cases hok : o k with
      | success s =>
        refine Or.inr (Or.inr (Or.inr (Or.inr (Or.inr (Or.inl ⟨c, s, rfl, rfl, rfl, ?_⟩)))))
        simp [closeStep, hu, hc, hok]
      | failure e =>
        refine Or.inr (Or.inr (Or.inr (Or.inr (Or.inr (Or.inr (Or.inl
          ⟨c, e, rfl, rfl, rfl, ?_⟩))))))
        simp [closeStep, hu, hc, hok]
    | none =>
      cases hok : o k with
      | success s =>
        refine Or.inr (Or.inr (Or.inr (Or.inr (Or.inr (Or.inr (Or.inr (Or.inl
          ⟨s, rfl, rfl, rfl, ?_⟩)))))))
        simp [closeStep, hu, hc, hok]
      | failure e =>
        refine Or.inr (Or.inr (Or.inr (Or.inr (Or.inr (Or.inr (Or.inr (Or.inr
          ⟨e, rfl, rfl, rfl, ?_⟩)))))))
        simp [closeStep, hu, hc, hok]

end Opendal

namespace Opendal

@[simp] theorem okBytes_nil : okBytes [] = 0 := rfl

@[simp] theorem okBytes_cons (c : Call) (tr : List Call) :
    okBytes (c :: tr) = callOkBytes c + okBytes tr := by
  simp [okBytes]

@[simp] theorem okBytes_append (a b : List Call) : okBytes (a ++ b) = okBytes a + okBytes b := by
  simp [okBytes]

theorem writeGo_succ_ret (fuel : Nat) (w : Writer) (bs : Chunk) (o : Oracle) (k : Nat)
    (r : Res Nat) (w2 : Writer) (k2 : Nat) (tr : List Call)
    (hstep : writeStep w bs o k = .ret r w2 k2 tr) :
    writeGo (fuel + 1) w bs o k = (r, w2, k2, tr) := by
  simp [writeGo, hstep]

theorem writeGo_succ_next (fuel : Nat) (w : Writer) (bs : Chunk) (o : Oracle) (k : Nat)
    (w2 : Writer) (k2 : Nat) (tr : List Call)
    (hstep : writeStep w bs o k = .next w2 k2 tr) :
    writeGo (fuel + 1) w bs o k =
      ((writeGo fuel w2 bs o k2).1, (writeGo fuel w2 bs o k2).2.1,
        (writeGo fuel w2 bs o k2).2.2.1, tr ++ (writeGo fuel w2 bs o k2).2.2.2) := by
  simp [writeGo, hstep]

theorem closeGo_succ_ret (fuel : Nat) (w : Writer) (o : Oracle) (k : Nat)
    (r : Res Unit) (w2 : Writer) (k2 : Nat) (tr : List Call)
    (hstep : closeStep w o k = .ret r w2 k2 tr) :
    closeGo (fuel + 1) w o k = (r, w2, k2, tr) := by
  simp [closeGo, hstep]

theorem closeGo_succ_next (fuel : Nat) (w : Writer) (o : Oracle) (k : Nat)
    (w2 : Writer) (k2 : Nat) (tr : List Call)
    (hstep : closeStep w o k = .next w2 k2 tr) :
    closeGo (fuel + 1) w o k =
      ((closeGo fuel w2 o k2).1, (closeGo fuel w2 o k2).2.1,
        (closeGo fuel w2 o k2).2.2.1, tr ++ (closeGo fuel w2 o k2).2.2.2) := by
  simp [closeGo, hstep]

theorem OrderInv_extend (w w2 : Writer) (uid : String) (c : Chunk)
    (hp : w2.parts = w.parts)
    (hf : w2.futures = w.futures ++ [⟨uid, w.next_part_number, c⟩])
    (hn : w2.next_part_number = w.next_part_number + 1)
    (h : OrderInv w) : OrderInv w2 := by
  obtain ⟨h1, h2, h3⟩ := h
  refine ⟨by simp [hp, h1], ?_, by simp [hp, hf, hn]; omega⟩
  simp only [hf, hp, List.map_append, List.map_cons, List.map_nil, List.length_append,
    List.length_cons, List.length_nil, h2]
  rw [h3, List.range'_1_concat]

theorem OrderInv_pop (w w2 : Writer) (hd : WritePartFuture) (t : List WritePartFuture)
    (etag : String)
    (hfut : w.futures = hd :: t)
    (hp : w2.parts = w.parts ++ [⟨hd.part_number, etag⟩])
    (hf : w2.futures = t)
    (hn : w2.next_part_number = w.next_part_number)
    (h : OrderInv w) : OrderInv w2 := by
  obtain ⟨h1, h2, h3⟩ := h
  rw [hfut] at h2 h3
  simp only [List.map_cons, List.length_cons] at h2
  rw [List.range'_succ] at h2
  obtain ⟨hhd, ht⟩ := List.cons.injEq .. |>.mp h2
  refine ⟨?_, ?_, ?_⟩
  · rw [hp, List.map_append, h1, List.map_cons, List.map_nil, hhd, List.length_append]
    simp [List.range_succ]
  · rw [hf, hp, ht, hhd, List.length_append]
    simp
  · rw [hn, hf, hp, h3, List.length_append]
    simp
    omega

end Opendal

namespace Opendal

theorem writeGo_ok : ∀ (fuel : Nat) (w : Writer) (bs : Chunk) (o : Oracle) (k : Nat) (n : Nat),
    (writeGo fuel w bs o k).1 = .ok n →
    n = bs.length
    ∧ (writeGo fuel w bs o k).2.1.state = .Idle
    ∧ (writeGo fuel w bs o k).2.1.cache = some bs
    ∧ okBytes (writeGo fuel w bs o k).2.2.2 + (writeGo fuel w bs o k).2.1.pendBytes
        = w.pendBytes + bs.length
    ∧ (writeGo fuel w bs o k).2.1.credit = w.credit + 1
    ∧ (OrderInv w → OrderInv (writeGo fuel w bs o k).2.1)
    ∧ (∀ uid, w.upload_id = some uid → (writeGo fuel w bs o k).2.1.upload_id = some uid)
    ∧ (w.cache.isSome → ∃ uid, (writeGo fuel w bs o k).2.1.upload_id = some uid)
    ∧ ((w.upload_id = none → w.futures = []) →
        ((writeGo fuel w bs o k).2.1.upload_id = none → (writeGo fuel w bs o k).2.1.futures = []))
    ∧ (∀ uid ps b, Call.complete_part uid ps b ∉ (writeGo fuel w bs o k).2.2.2) := by
  intro fuel
  induction fuel with
  | zero => intro w bs o k n hres; simp [writeGo] at hres
  | succ fuel ih =>
    intro w bs o k n hres
    rcases writeStep_eq w bs o k with
      ⟨hst, hstep⟩ | ⟨uid, hst, hu, hlt, hc, hstep⟩ | ⟨uid, c, hst, hu, hlt, hc, hstep⟩
      | ⟨uid, hst, hu, hlt, hf, hstep⟩ | ⟨uid, hd, t, etag, hst, hu, hlt, hf, hok, hstep⟩
      | ⟨uid, hd, t, e, hst, hu, hlt, hf, hok, hstep⟩ | ⟨hst, hu, hc, hstep⟩
      | ⟨c, uid2, hst, hu, hc, hok, hstep⟩ | ⟨c, e, hst, hu, hc, hok, hstep⟩
    · rw [writeGo_succ_ret fuel w bs o k _ _ _ _ hstep] at hres
      simp at hres
    · rw [writeGo_succ_ret fuel w bs o k _ _ _ _ hstep] at hres
      simp at hres
    · rw [writeGo_succ_ret fuel w bs o k _ _ _ _ hstep] at hres ⊢
      simp only [Res.ok.injEq] at hres
      refine ⟨hres.symm, by simp [hst], rfl, ?_, ?_, ?_, ?_, ?_, ?_, ?_⟩
      · simp [Writer.pendBytes, hc]
        try omega
      · simp [Writer.credit, Writer.pendCount, hc]
        try omega
      · intro hOrd
        exact OrderInv_extend w _ uid c rfl rfl rfl hOrd
      · intro uid2 hu2
        simp only [hu, Option.some.injEq] at hu2
        simp [hu, hu2]
      · intro _
        exact ⟨uid, by simp [hu]⟩
      · intro _ habs
        simp [hu] at habs
      · simp
    · rw [writeGo_succ_ret fuel w bs o k _ _ _ _ hstep] at hres
      simp at hres
    · rw [writeGo_succ_next fuel w bs o k _ _ _ hstep] at hres ⊢
      simp only at hres ⊢
      obtain ⟨ihn, ihst, ihcache, ihbytes, ihcredit, ihord, ihmono, ihsome, ihempty, ihcomplete⟩ :=
        ih { w with parts := w.parts ++ [⟨hd.part_number, etag⟩], futures := t } bs o (k + 1) n hres
      refine ⟨ihn, ihst, ihcache, ?_, ?_, ?_, ?_, ?_, ?_, ?_⟩
      · rw [okBytes_append]
        simp only [Writer.pendBytes, hf] at ihbytes ⊢
        simp only [okBytes_cons, okBytes_nil, callOkBytes, List.map_cons, List.sum_cons] at ihbytes ⊢
        omega
      · simp only [Writer.credit, Writer.pendCount, hf] at ihcredit ⊢
        simp only [List.length_append, List.length_cons, List.length_nil] at ihcredit
        simp only [List.length_cons]
        omega
      · intro hOrd
        exact ihord (OrderInv_pop w _ hd t etag hf rfl rfl rfl hOrd)
      · intro uid2 hu2
        exact ihmono uid2 (by simpa using hu2)
      · intro hcs
        exact ihsome (by simpa using hcs)
      · intro hemp
        refine ihempty (fun habs => ?_)
        simp [hu] at habs
      · intro uid2 ps b hmem
        rcases List.mem_append.mp hmem with hmem | hmem
        · simp at hmem
        · exact ihcomplete uid2 ps b hmem
    · rw [writeGo_succ_ret fuel w bs o k _ _ _ _ hstep] at hres
      simp at hres
    · rw [writeGo_succ_ret fuel w bs o k _ _ _ _ hstep] at hres ⊢
      simp only [Res.ok.injEq] at hres
      refine ⟨hres.symm, by simp [hst], rfl, ?_, ?_, ?_, ?_, ?_, ?_, ?_⟩
      · simp [Writer.pendBytes, hc]
        try omega
      · simp [Writer.credit, Writer.pendCount, hc]
        try omega
      · intro hOrd
        simpa [OrderInv] using hOrd
      · intro uid2 hu2
        simp [hu] at hu2
      · intro hcs
        simp [hc] at hcs
      · intro hemp _
        simpa using hemp hu
      · simp
    · rw [writeGo_succ_next fuel w bs o k _ _ _ hstep] at hres ⊢
      simp only at hres ⊢
      obtain ⟨ihn, ihst, ihcache, ihbytes, ihcredit, ihord, ihmono, ihsome, ihempty, ihcomplete⟩ :=
        ih { w with upload_id := some uid2 } bs o (k + 1) n hres
      refine ⟨ihn, ihst, ihcache, ?_, ?_, ?_, ?_, ?_, ?_, ?_⟩
      · simpa [Writer.pendBytes, callOkBytes] using ihbytes
      · simpa [Writer.credit, Writer.pendCount] using ihcredit
      · intro hOrd
        exact ihord (by simpa [OrderInv] using hOrd)
      · intro uid3 hu3
        simp [hu] at hu3
      · intro _
        exact ⟨uid2, ihmono uid2 rfl⟩
      · intro _ habs
        rw [ihmono uid2 rfl] at habs
        exact absurd habs (by simp)
      · intro uid3 ps b hmem
        rcases List.mem_append.mp hmem with hmem | hmem
        · simp at hmem
        · exact ihcomplete uid3 ps b hmem
    · rw [writeGo_succ_ret fuel w bs o k _ _ _ _ hstep] at hres
      simp at hres

end Opendal

namespace Opendal

theorem OrderInv_swapHead (w w2 : Writer) (hd : WritePartFuture) (t : List WritePartFuture)
    (uid : String)
    (hfut : w.futures = hd :: t)
    (hp : w2.parts = w.parts)
    (hf : w2.futures = ⟨uid, hd.part_number, hd.bytes⟩ :: t)
    (hn : w2.next_part_number = w.next_part_number)
    (h : OrderInv w) : OrderInv w2 := by
  obtain ⟨h1, h2, h3⟩ := h
  rw [hfut] at h2 h3
  refine ⟨by simp [hp, h1], ?_, ?_⟩
  · rw [hf, hp]
    simpa using h2
  · rw [hn, hf, hp, h3]
    simp

theorem writeGo_err : ∀ (fuel : Nat) (w : Writer) (bs : Chunk) (o : Oracle) (k : Nat) (e : Nat),
    (writeGo fuel w bs o k).1 = .err e →
    okBytes (writeGo fuel w bs o k).2.2.2 + (writeGo fuel w bs o k).2.1.pendBytes = w.pendBytes
    ∧ (writeGo fuel w bs o k).2.1.credit = w.credit
    ∧ (OrderInv w → OrderInv (writeGo fuel w bs o k).2.1)
    ∧ (∀ uid, w.upload_id = some uid → (writeGo fuel w bs o k).2.1.upload_id = some uid)
    ∧ (writeGo fuel w bs o k).2.1.cache = w.cache
    ∧ ((w.upload_id = none → w.futures = []) →
        ((writeGo fuel w bs o k).2.1.upload_id = none → (writeGo fuel w bs o k).2.1.futures = []))
    ∧ (∀ uid ps b, Call.complete_part uid ps b ∉ (writeGo fuel w bs o k).2.2.2) := by
  intro fuel
  induction fuel with
  | zero => intro w bs o k e hres; simp [writeGo] at hres
  | succ fuel ih =>
    intro w bs o k e hres
    rcases writeStep_eq w bs o k with
      ⟨hst, hstep⟩ | ⟨uid, hst, hu, hlt, hc, hstep⟩ | ⟨uid, c, hst, hu, hlt, hc, hstep⟩
      | ⟨uid, hst, hu, hlt, hf, hstep⟩ | ⟨uid, hd, t, etag, hst, hu, hlt, hf, hok, hstep⟩
      | ⟨uid, hd, t, e2, hst, hu, hlt, hf, hok, hstep⟩ | ⟨hst, hu, hc, hstep⟩
      | ⟨c, uid2, hst, hu, hc, hok, hstep⟩ | ⟨c, e2, hst, hu, hc, hok, hstep⟩
    · rw [writeGo_succ_ret fuel w bs o k _ _ _ _ hstep] at hres
      simp at hres
    · rw [writeGo_succ_ret fuel w bs o k _ _ _ _ hstep] at hres
      simp at hres
    · rw [writeGo_succ_ret fuel w bs o k _ _ _ _ hstep] at hres
      simp at hres
    · rw [writeGo_succ_ret fuel w bs o k _ _ _ _ hstep] at hres
      simp at hres
    · rw [writeGo_succ_next fuel w bs o k _ _ _ hstep] at hres ⊢
      simp only at hres ⊢
      obtain ⟨ihbytes, ihcredit, ihord, ihmono, ihcache, ihempty, ihcomplete⟩ :=
        ih { w with parts := w.parts ++ [⟨hd.part_number, etag⟩], futures := t } bs o (k + 1) e hres
      refine ⟨?_, ?_, ?_, ?_, ?_, ?_, ?_⟩
      · rw [okBytes_append]
        simp [Writer.pendBytes, hf, callOkBytes] at ihbytes ⊢
        omega
      · simp [Writer.credit, Writer.pendCount, hf] at ihcredit ⊢
        omega
      · intro hOrd
        exact ihord (OrderInv_pop w _ hd t etag hf rfl rfl rfl hOrd)
      · intro uid2 hu2
        exact ihmono uid2 (by simpa using hu2)
      · simpa using ihcache
      · intro hemp
        refine ihempty (fun habs => ?_)
        simp [hu] at habs
      · intro uid2 ps b hmem
        rcases List.mem_append.mp hmem with hmem | hmem
        · simp at hmem
        · exact ihcomplete uid2 ps b hmem
    · rw [writeGo_succ_ret fuel w bs o k _ _ _ _ hstep] at hres ⊢
      refine ⟨?_, ?_, ?_, ?_, ?_, ?_, ?_⟩
      · simp [Writer.pendBytes, hf, callOkBytes]
        try omega
      · simp [Writer.credit, Writer.pendCount, hf]
        try omega
      · intro hOrd
        exact OrderInv_swapHead w _ hd t uid hf rfl rfl rfl hOrd
      · intro uid2 hu2
        simp only [hu, Option.some.injEq] at hu2
        simp [hu, hu2]
      · rfl
      · intro _ habs
        simp [hu] at habs
      · simp
    · rw [writeGo_succ_ret fuel w bs o k _ _ _ _ hstep] at hres
      simp at hres
    · rw [writeGo_succ_next fuel w bs o k _ _ _ hstep] at hres ⊢
      simp only at hres ⊢
      obtain ⟨ihbytes, ihcredit, ihord, ihmono, ihcache, ihempty, ihcomplete⟩ :=
        ih { w with upload_id := some uid2 } bs o (k + 1) e hres
      refine ⟨?_, ?_, ?_, ?_, ?_, ?_, ?_⟩
      · simpa [Writer.pendBytes, callOkBytes] using ihbytes
      · simpa [Writer.credit, Writer.pendCount] using ihcredit
      · intro hOrd
        exact ihord (by simpa [OrderInv] using hOrd)
      · intro uid3 hu3
        simp [hu] at hu3
      · simpa using ihcache
      · intro _ habs
        rw [ihmono uid2 rfl] at habs
        exact absurd habs (by simp)
      · intro uid3 ps b hmem
        rcases List.mem_append.mp hmem with hmem | hmem
        · simp at hmem
        · exact ihcomplete uid3 ps b hmem
    · rw [writeGo_succ_ret fuel w bs o k _ _ _ _ hstep] at hres ⊢
      refine ⟨?_, ?_, ?_, ?_, ?_, ?_, ?_⟩
      · simp [Writer.pendBytes, callOkBytes]
      · simp [Writer.credit, Writer.pendCount]
      · intro hOrd
        simpa [OrderInv] using hOrd
      · intro uid2 hu2
        simp [hu] at hu2
      · rfl
      · intro hemp _
        simpa using hemp hu
      · simp

end Opendal

namespace Opendal

theorem driveWrite_some : ∀ (fuel : Nat) (w : Writer) (bs : Chunk) (o : Oracle) (k : Nat)
    (w' : Writer) (k' : Nat) (tr : List Call),
    driveWrite fuel w bs o k = some (w', k', tr) →
    w'.state = .Idle
    ∧ w'.cache = some bs
    ∧ okBytes tr + w'.pendBytes = w.pendBytes + bs.length
    ∧ w'.credit = w.credit + 1
    ∧ (OrderInv w → OrderInv w')
    ∧ (∀ uid, w.upload_id = some uid → w'.upload_id = some uid)
    ∧ (w.cache.isSome → ∃ uid, w'.upload_id = some uid)
    ∧ ((w.upload_id = none → w.futures = []) → (w'.upload_id = none → w'.futures = []))
    ∧ (∀ uid ps b, Call.complete_part uid ps b ∉ tr) := by
  intro fuel
  induction fuel with
  | zero => intro w bs o k w' k' tr h; simp [driveWrite] at h
  | succ fuel ih =>
    intro w bs o k w' k' tr h
    rcases hpw : w.poll_write bs o k with ⟨r, w2, k2, tr2⟩
    have hpw2 := hpw
    rw [Writer.poll_write] at hpw2
    cases r with
    | ok n =>
      simp only [driveWrite, hpw, Option.some.injEq, Prod.mk.injEq] at h
      obtain ⟨rfl, hk, rfl⟩ := h
      have hres : (writeGo (w.futures.length + 3) w bs o k).1 = .ok n := by rw [hpw2]
      obtain ⟨_, gst, gcache, gbytes, gcredit, gord, gmono, gsome, gempty, gcomplete⟩ :=
        writeGo_ok (w.futures.length + 3) w bs o k n hres
      simp only [hpw2] at gst gcache gbytes gcredit gord gmono gsome gempty gcomplete
      exact ⟨gst, gcache, gbytes, gcredit, gord, gmono, gsome, gempty, gcomplete⟩
    | err e =>
      simp only [driveWrite, hpw] at h
      have hres : (writeGo (w.futures.length + 3) w bs o k).1 = .err e := by rw [hpw2]
      obtain ⟨gbytes, gcredit, gord, gmono, gcache, gempty, gcomplete⟩ :=
        writeGo_err (w.futures.length + 3) w bs o k e hres
      simp only [hpw2] at gbytes gcredit gord gmono gcache gempty gcomplete
      rcases hdw : driveWrite fuel w2 bs o k2 with _ | ⟨⟨w3, k3, tr3⟩⟩
      · rw [hdw] at h
        exact Option.noConfusion h
      · rw [hdw] at h
        simp only [Option.some.injEq, Prod.mk.injEq] at h
        obtain ⟨rfl, hk, rfl⟩ := h
        obtain ⟨ist, icache, ibytes, icredit, iord, imono, isome, iempty, icomplete⟩ :=
          ih w2 bs o k2 w3 k3 tr3 hdw
        refine ⟨ist, icache, ?_, ?_, ?_, ?_, ?_, ?_, ?_⟩
        · rw [okBytes_append]
          omega
        · omega
        · intro hOrd
          exact iord (gord hOrd)
        · intro uid hu
          exact imono uid (gmono uid hu)
        · intro hcs
          exact isome (by rw [gcache]; exact hcs)
        · intro hemp
          exact iempty (gempty hemp)
        · intro uid ps b hmem
          rcases List.mem_append.mp hmem with hmem | hmem
          · exact gcomplete uid ps b hmem
          · exact icomplete uid ps b hmem
    | panicked p =>
      simp only [driveWrite, hpw] at h
      exact Option.noConfusion h

theorem driveWrites_some : ∀ (cs : List Chunk) (fuel : Nat) (w : Writer) (o : Oracle) (k : Nat)
    (w' : Writer) (k' : Nat) (tr : List Call),
    driveWrites fuel w cs o k = some (w', k', tr) →
    okBytes tr + w'.pendBytes = w.pendBytes + totalBytes cs
    ∧ w'.credit = w.credit + cs.length
    ∧ (OrderInv w → OrderInv w')
    ∧ (∀ uid, w.upload_id = some uid → w'.upload_id = some uid)
    ∧ ((w.upload_id = none → w.futures = []) → (w'.upload_id = none → w'.futures = []))
    ∧ (∀ uid ps b, Call.complete_part uid ps b ∉ tr)
    ∧ (cs = [] → w' = w ∧ tr = [])
    ∧ (cs ≠ [] → w'.state = .Idle ∧ w'.cache.isSome)
    ∧ (w.cache.isSome → cs ≠ [] → ∃ uid, w'.upload_id = some uid)
    ∧ (2 ≤ cs.length → ∃ uid, w'.upload_id = some uid) := by
  intro cs
  induction cs with
  | nil =>
    intro fuel w o k w' k' tr h
    simp only [driveWrites, Option.some.injEq, Prod.mk.injEq] at h
    obtain ⟨rfl, _, rfl⟩ := h
    simp [totalBytes]
  | cons c rest ihc =>
    intro fuel w o k w' k' tr h
    rcases hdw : driveWrite fuel w c o k with _ | ⟨⟨w2, k2, tr2⟩⟩
    · simp only [driveWrites, hdw] at h
      exact Option.noConfusion h
    · simp only [driveWrites, hdw] at h
      rcases hrest : driveWrites fuel w2 rest o k2 with _ | ⟨⟨w3, k3, tr3⟩⟩
      · rw [hrest] at h
        exact Option.noConfusion h
      · rw [hrest] at h
        simp only [Option.some.injEq, Prod.mk.injEq] at h
        obtain ⟨rfl, _, rfl⟩ := h
        obtain ⟨dst, dcache, dbytes, dcredit, dord, dmono, dsome, dempty, dcomplete⟩ :=
          driveWrite_some fuel w c o k w2 k2 tr2 hdw
        obtain ⟨ibytes, icredit, iord, imono, iempty, icomplete, inil, inonnil, icsome, itwo⟩ :=
          ihc fuel w2 o k2 w3 k3 tr3 hrest
        refine ⟨?_, ?_, ?_, ?_, ?_, ?_, ?_, ?_, ?_, ?_⟩
        · rw [okBytes_append]
          simp only [totalBytes, List.map_cons, List.sum_cons] at ibytes dbytes ⊢
          omega
        · simp only [List.length_cons]
          omega
        · intro hOrd
          exact iord (dord hOrd)
        · intro uid hu
          exact imono uid (dmono uid hu)
        · intro hemp
          exact iempty (dempty hemp)
        · intro uid ps b hmem
          rcases List.mem_append.mp hmem with hmem | hmem
          · exact dcomplete uid ps b hmem
          · exact icomplete uid ps b hmem
        · intro habs
          cases habs
        · intro _
          rcases em (rest = []) with hr | hr
          · obtain ⟨rfl, _⟩ := inil hr
            exact ⟨dst, by simp [dcache]⟩
          · exact inonnil hr
        · intro hcs _
          rcases em (rest = []) with hr | hr
          · obtain ⟨rfl, _⟩ := inil hr
            exact dsome hcs
          · obtain ⟨uid, hu⟩ := dsome hcs
            exact ⟨uid, imono uid hu⟩
        · intro hlen
          have hr : rest ≠ [] := by
            intro habs
            rw [habs] at hlen
            simp at hlen
          exact icsome (by simp [dcache]) hr

end Opendal

namespace Opendal

theorem drainPush_facts (w : Writer) (uid : String) :
    (drainPush w uid).parts = w.parts
    ∧ (drainPush w uid).state = w.state
    ∧ (drainPush w uid).upload_id = w.upload_id
    ∧ (drainPush w uid).pendBytes = w.pendBytes
    ∧ (drainPush w uid).credit = w.credit
    ∧ (OrderInv w → OrderInv (drainPush w uid)) := by
  rcases drainPush_spec w uid with ⟨c, hlt, hc, hdp⟩ | ⟨_, hdp⟩
  · rw [hdp]
    refine ⟨rfl, rfl, rfl, ?_, ?_, ?_⟩
    · simp [Writer.pendBytes, hc]
      try omega
    · simp [Writer.credit, Writer.pendCount, hc]
      try omega
    · intro h
      exact OrderInv_extend w _ uid c rfl rfl rfl h
  · rw [hdp]
    exact ⟨rfl, rfl, rfl, rfl, rfl, id⟩

theorem closeGo_ok : ∀ (fuel : Nat) (w : Writer) (o : Oracle) (k : Nat),
    (closeGo fuel w o k).1 = .ok () →
    okBytes (closeGo fuel w o k).2.2.2 + (closeGo fuel w o k).2.1.pendBytes = w.pendBytes
    ∧ (∀ uid, w.upload_id = some uid → (closeGo fuel w o k).2.1.credit = w.credit)
    ∧ (closeGo fuel w o k).2.1.state = w.state
    ∧ (closeGo fuel w o k).2.1.upload_id = w.upload_id
    ∧ (∀ uid, w.upload_id = some uid →
        (closeGo fuel w o k).2.1.futures = [] ∧ (closeGo fuel w o k).2.1.cache = none)
    ∧ (w.upload_id = none →
        (closeGo fuel w o k).2.1.futures = w.futures ∧ (closeGo fuel w o k).2.1.cache = none)
    ∧ (OrderInv w → OrderInv (closeGo fuel w o k).2.1)
    ∧ (∀ uid ps b, Call.complete_part uid ps b ∈ (closeGo fuel w o k).2.2.2 →
        OrderInv w → ps.map MultipartPart.part_number = List.range w.credit)
    ∧ (∀ uid, w.upload_id = some uid →
        ∃ ps, Call.complete_part uid ps true ∈ (closeGo fuel w o k).2.2.2) := by
  intro fuel
  induction fuel with
  | zero => intro w o k hres; simp [closeGo] at hres
  | succ fuel ih =>
    intro w o k hres
    rcases closeStep_eq w o k with
      ⟨uid, sx, hu, hf, hc, hok, hstep⟩ | ⟨uid, e2, hu, hf, hc, hok, hstep⟩
      | ⟨uid, hu, hne, hf, hstep⟩ | ⟨uid, hd, t, etag, hu, hne, hf, hok, hstep⟩
      | ⟨uid, hd, t, e2, hu, hne, hf, hok, hstep⟩ | ⟨c, sx, hu, hc, hok, hstep⟩
      | ⟨c, e2, hu, hc, hok, hstep⟩ | ⟨sx, hu, hc, hok, hstep⟩ | ⟨e2, hu, hc, hok, hstep⟩
    · rw [closeGo_succ_ret fuel w o k _ _ _ _ hstep] at hres ⊢
      refine ⟨?_, ?_, rfl, rfl, ?_, ?_, ?_, ?_, ?_⟩
      · simp [Writer.pendBytes, callOkBytes, hf, hc]
      · intro uid2 _
        simp [Writer.credit, Writer.pendCount, hc]
      · intro uid2 _
        exact ⟨hf, rfl⟩
      · intro habs
        rw [hu] at habs
        cases habs
      · intro hOrd
        simpa [OrderInv] using hOrd
      · intro uid2 ps b hmem hOrd
        simp only [List.mem_singleton, Call.complete_part.injEq] at hmem
        obtain ⟨_, rfl, _⟩ := hmem
        simp only [Writer.credit, Writer.pendCount, hf, hc]
        simpa using hOrd.1
      · intro uid2 hu2
        rw [hu] at hu2
        obtain rfl := Option.some.injEq .. |>.mp hu2
        exact ⟨w.parts, by simp⟩
    · rw [closeGo_succ_ret fuel w o k _ _ _ _ hstep] at hres
      simp at hres
    · rw [closeGo_succ_ret fuel w o k _ _ _ _ hstep] at hres
      simp at hres
    · rw [closeGo_succ_next fuel w o k _ _ _ hstep] at hres ⊢
      simp only at hres ⊢
      obtain ⟨dpp, dps, dpu, dpb, dpc, dpo⟩ := drainPush_facts w uid
      obtain ⟨ih1, ih2, ih3, ih4, ih5, ih6, ih7, ih8, ih9⟩ :=
        ih { drainPush w uid with
              parts := (drainPush w uid).parts ++ [⟨hd.part_number, etag⟩], futures := t }
          o (k + 1) hres
      have hpend : (drainPush w uid).pendBytes =
          hd.bytes.length +
            ({ drainPush w uid with
                parts := (drainPush w uid).parts ++ [⟨hd.part_number, etag⟩],
                futures := t } : Writer).pendBytes := by
        simp [Writer.pendBytes, hf]
        try omega
      have hcred : ({ drainPush w uid with
            parts := (drainPush w uid).parts ++ [⟨hd.part_number, etag⟩],
            futures := t } : Writer).credit = w.credit := by
        rw [← dpc]
        simp [Writer.credit, Writer.pendCount, hf]
        try omega
      have hup2 : ({ drainPush w uid with
            parts := (drainPush w uid).parts ++ [⟨hd.part_number, etag⟩],
            futures := t } : Writer).upload_id = w.upload_id := by
        simpa using dpu
      refine ⟨?_, ?_, ?_, ?_, ?_, ?_, ?_, ?_, ?_⟩
      · rw [okBytes_append]
        simp only [okBytes_cons, okBytes_nil, callOkBytes] at *
        omega
      · intro uid2 hu2
        rw [ih2 uid2 (by rw [hup2, hu2]), hcred]
      · rw [ih3]
        simpa using dps
      · rw [ih4, hup2]
      · intro uid2 hu2
        exact ih5 uid2 (by rw [hup2, hu2])
      · intro habs
        rw [hu] at habs
        cases habs
      · intro hOrd
        exact ih7 (OrderInv_pop (drainPush w uid) _ hd t etag hf rfl rfl rfl (dpo hOrd))
      · intro uid2 ps b hmem hOrd
        rcases List.mem_append.mp hmem with hmem | hmem
        · simp at hmem
        · rw [ih8 uid2 ps b hmem
            (OrderInv_pop (drainPush w uid) _ hd t etag hf rfl rfl rfl (dpo hOrd)), hcred]
      · intro uid2 hu2
        obtain ⟨ps, hmem⟩ := ih9 uid2 (by rw [hup2, hu2])
        exact ⟨ps, List.mem_append_right _ hmem⟩
    · rw [closeGo_succ_ret fuel w o k _ _ _ _ hstep] at hres
      simp at hres
    · rw [closeGo_succ_ret fuel w o k _ _ _ _ hstep] at hres ⊢
      refine ⟨?_, ?_, rfl, rfl, ?_, ?_, ?_, ?_, ?_⟩
      · simp [Writer.pendBytes, callOkBytes, hc]
        try omega
      · intro uid2 hu2
        rw [hu] at hu2
        cases hu2
      · intro uid2 hu2
        rw [hu] at hu2
        cases hu2
      · intro _
        exact ⟨rfl, rfl⟩
      · intro hOrd
        simpa [OrderInv] using hOrd
      · intro uid2 ps b hmem
        simp at hmem
      · intro uid2 hu2
        rw [hu] at hu2
        cases hu2
    · rw [closeGo_succ_ret fuel w o k _ _ _ _ hstep] at hres
      simp at hres
    · rw [closeGo_succ_ret fuel w o k _ _ _ _ hstep] at hres ⊢
      refine ⟨?_, ?_, rfl, rfl, ?_, ?_, ?_, ?_, ?_⟩
      · simp [Writer.pendBytes, callOkBytes, hc]
      · intro uid2 hu2
        rw [hu] at hu2
        cases hu2
      · intro uid2 hu2
        rw [hu] at hu2
        cases hu2
      · intro _
        exact ⟨rfl, rfl⟩
      · intro hOrd
        simpa [OrderInv] using hOrd
      · intro uid2 ps b hmem
        simp at hmem
      · intro uid2 hu2
        rw [hu] at hu2
        cases hu2
    · rw [closeGo_succ_ret fuel w o k _ _ _ _ hstep] at hres
      simp at hres

end Opendal

namespace Opendal

theorem closeGo_err : ∀ (fuel : Nat) (w : Writer) (o : Oracle) (k : Nat) (e : Nat),
    (closeGo fuel w o k).1 = .err e →
    okBytes (closeGo fuel w o k).2.2.2 + (closeGo fuel w o k).2.1.pendBytes = w.pendBytes
    ∧ (∀ uid, w.upload_id = some uid → (closeGo fuel w o k).2.1.credit = w.credit)
    ∧ (closeGo fuel w o k).2.1.state = w.state
    ∧ (closeGo fuel w o k).2.1.upload_id = w.upload_id
    ∧ (w.upload_id = none → (closeGo fuel w o k).2.1 = w)
    ∧ (OrderInv w → OrderInv (closeGo fuel w o k).2.1)
    ∧ (∀ uid ps b, Call.complete_part uid ps b ∈ (closeGo fuel w o k).2.2.2 →
        OrderInv w → ps.map MultipartPart.part_number = List.range w.credit) := by
  intro fuel
  induction fuel with
  | zero => intro w o k e hres; simp [closeGo] at hres
  | succ fuel ih =>
    intro w o k e hres
    rcases closeStep_eq w o k with
      ⟨uid, sx, hu, hf, hc, hok, hstep⟩ | ⟨uid, e2, hu, hf, hc, hok, hstep⟩
      | ⟨uid, hu, hne, hf, hstep⟩ | ⟨uid, hd, t, etag, hu, hne, hf, hok, hstep⟩
      | ⟨uid, hd, t, e2, hu, hne, hf, hok, hstep⟩ | ⟨c, sx, hu, hc, hok, hstep⟩
      | ⟨c, e2, hu, hc, hok, hstep⟩ | ⟨sx, hu, hc, hok, hstep⟩ | ⟨e2, hu, hc, hok, hstep⟩
    · rw [closeGo_succ_ret fuel w o k _ _ _ _ hstep] at hres
      simp at hres
    · rw [closeGo_succ_ret fuel w o k _ _ _ _ hstep] at hres ⊢
      refine ⟨?_, fun _ _ => rfl, rfl, rfl, fun _ => rfl, id, ?_⟩
      · simp [Writer.pendBytes, callOkBytes, hf, hc]
      · intro uid2 ps b hmem hOrd
        simp only [List.mem_singleton, Call.complete_part.injEq] at hmem
        obtain ⟨_, rfl, _⟩ := hmem
        simp only [Writer.credit, Writer.pendCount, hf, hc]
        simpa using hOrd.1
    · rw [closeGo_succ_ret fuel w o k _ _ _ _ hstep] at hres
      simp at hres
    · rw [closeGo_succ_next fuel w o k _ _ _ hstep] at hres ⊢
      simp only at hres ⊢
      obtain ⟨dpp, dps, dpu, dpb, dpc, dpo⟩ := drainPush_facts w uid
      obtain ⟨ih1, ih2, ih3, ih4, ih5, ih6, ih7⟩ :=
        ih { drainPush w uid with
              parts := (drainPush w uid).parts ++ [⟨hd.part_number, etag⟩], futures := t }
          o (k + 1) e hres
      have hpend : (drainPush w uid).pendBytes =
          hd.bytes.length +
            ({ drainPush w uid with
                parts := (drainPush w uid).parts ++ [⟨hd.part_number, etag⟩],
                futures := t } : Writer).pendBytes := by
        simp [Writer.pendBytes, hf]
        try omega
      have hcred : ({ drainPush w uid with
            parts := (drainPush w uid).parts ++ [⟨hd.part_number, etag⟩],
            futures := t } : Writer).credit = w.credit := by
        rw [← dpc]
        simp [Writer.credit, Writer.pendCount, hf]
        try omega
      have hup2 : ({ drainPush w uid with
            parts := (drainPush w uid).parts ++ [⟨hd.part_number, etag⟩],
            futures := t } : Writer).upload_id = w.upload_id := by
        simpa using dpu
      refine ⟨?_, ?_, ?_, ?_, ?_, ?_, ?_⟩
      · rw [okBytes_append]
        simp only [okBytes_cons, okBytes_nil, callOkBytes] at *
        omega
      · intro uid2 hu2
        rw [ih2 uid2 (by rw [hup2, hu2]), hcred]
      · rw [ih3]
        simpa using dps
      · rw [ih4, hup2]
      · intro habs
        rw [hu] at habs
        cases habs
      · intro hOrd
        exact ih6 (OrderInv_pop (drainPush w uid) _ hd t etag hf rfl rfl rfl (dpo hOrd))
      · intro uid2 ps b hmem hOrd
        rcases List.mem_append.mp hmem with hmem | hmem
        · simp at hmem
        · rw [ih7 uid2 ps b hmem
            (OrderInv_pop (drainPush w uid) _ hd t etag hf rfl rfl rfl (dpo hOrd)), hcred]
    · rw [closeGo_succ_ret fuel w o k _ _ _ _ hstep] at hres ⊢
      obtain ⟨dpp, dps, dpu, dpb, dpc, dpo⟩ := drainPush_facts w uid
      refine ⟨?_, ?_, ?_, ?_, ?_, ?_, ?_⟩
      · rw [← dpb]
        simp [Writer.pendBytes, callOkBytes, hf]
        try omega
      · intro uid2 _
        rw [← dpc]
        simp [Writer.credit, Writer.pendCount, hf]
      · simpa using dps
      · simpa using dpu
      · intro habs
        rw [hu] at habs
        cases habs
      · intro hOrd
        exact OrderInv_swapHead (drainPush w uid) _ hd t uid hf rfl rfl rfl (dpo hOrd)
      · intro uid2 ps b hmem
        simp at hmem
    · rw [closeGo_succ_ret fuel w o k _ _ _ _ hstep] at hres
      simp at hres
    · rw [closeGo_succ_ret fuel w o k _ _ _ _ hstep] at hres ⊢
      exact ⟨by simp [callOkBytes], fun _ _ => rfl, rfl, rfl, fun _ => rfl, id,
        fun uid2 ps b hmem => by simp at hmem⟩
    · rw [closeGo_succ_ret fuel w o k _ _ _ _ hstep] at hres
      simp at hres
    · rw [closeGo_succ_ret fuel w o k _ _ _ _ hstep] at hres ⊢
      exact ⟨by simp [callOkBytes], fun _ _ => rfl, rfl, rfl, fun _ => rfl, id,
        fun uid2 ps b hmem => by simp at hmem⟩

end Opendal

namespace Opendal

theorem driveClose_some : ∀ (fuel : Nat) (w : Writer) (o : Oracle) (k : Nat)
    (w' : Writer) (k' : Nat) (tr : List Call),
    driveClose fuel w o k = some (w', k', tr) →
    w.state = .Idle →
    okBytes tr + w'.pendBytes = w.pendBytes
    ∧ (∀ uid, w.upload_id = some uid →
        w'.futures = [] ∧ w'.cache = none ∧ ∃ ps, Call.complete_part uid ps true ∈ tr)
    ∧ (w.upload_id = none → w'.futures = w.futures ∧ w'.cache = none)
    ∧ (∀ uid ps b, Call.complete_part uid ps b ∈ tr →
        OrderInv w → ps.map MultipartPart.part_number = List.range w.credit) := by
  intro fuel
  induction fuel with
  | zero => intro w o k w' k' tr h hst; simp [driveClose] at h
  | succ fuel ih =>
    intro w o k w' k' tr h hst
    rcases hpc : w.poll_close o k with ⟨r, w2, k2, tr2⟩
    have hpc2 := hpc
    simp only [Writer.poll_close, hst] at hpc2
    cases r with
    | ok u =>
      cases u
      simp only [driveClose, hpc, Option.some.injEq, Prod.mk.injEq] at h
      obtain ⟨rfl, hk, rfl⟩ := h
      have hres : (closeGo (w.futures.length + 3) w o k).1 = .ok () := by rw [hpc2]
      obtain ⟨g1, g2, g3, g4, g5, g6, g7, g8, g9⟩ := closeGo_ok (w.futures.length + 3) w o k hres
      simp only [hpc2] at g1 g2 g3 g4 g5 g6 g7 g8 g9
      refine ⟨g1, ?_, g6, g8⟩
      intro uid hu
      obtain ⟨hfe, hce⟩ := g5 uid hu
      obtain ⟨ps, hmem⟩ := g9 uid hu
      exact ⟨hfe, hce, ps, hmem⟩
    | err e =>
      simp only [driveClose, hpc] at h
      have hres : (closeGo (w.futures.length + 3) w o k).1 = .err e := by rw [hpc2]
      obtain ⟨g1, g2, g3, g4, g5, g6, g7⟩ := closeGo_err (w.futures.length + 3) w o k e hres
      simp only [hpc2] at g1 g2 g3 g4 g5 g6 g7
      rcases hdc : driveClose fuel w2 o k2 with _ | ⟨⟨w3, k3, tr3⟩⟩
      · rw [hdc] at h
        exact Option.noConfusion h
      · rw [hdc] at h
        simp only [Option.some.injEq, Prod.mk.injEq] at h
        obtain ⟨rfl, hk, rfl⟩ := h
        obtain ⟨ih1, ih2, ih3, ih4⟩ := ih w2 o k2 w3 k3 tr3 hdc (by rw [g3, hst])
        refine ⟨?_, ?_, ?_, ?_⟩
        · rw [okBytes_append]
          omega
        · intro uid hu
          obtain ⟨hfe, hce, ps, hmem⟩ := ih2 uid (by rw [g4, hu])
          exact ⟨hfe, hce, ps, List.mem_append_right _ hmem⟩
        · intro hu
          obtain ⟨hfe, hce⟩ := ih3 (by rw [g4, hu])
          rw [g5 hu] at hfe
          exact ⟨hfe, hce⟩
        · intro uid ps b hmem hOrd
          rcases List.mem_append.mp hmem with hmem | hmem
          · exact g7 uid ps b hmem hOrd
          · rcases hu0 : w.upload_id with _ | uid0
            · have hw2 := g5 hu0
              rw [ih4 uid ps b hmem (g6 hOrd), hw2]
            · rw [ih4 uid ps b hmem (g6 hOrd), g2 uid0 hu0]
    | panicked p =>
      simp only [driveClose, hpc] at h
      exact Option.noConfusion h

end Opendal

namespace Opendal

theorem OrderInv_new (concurrent : Nat) : OrderInv (Writer.new concurrent) := by
  simp [OrderInv, Writer.new]

theorem new_credit (concurrent : Nat) : (Writer.new concurrent).credit = 0 := by
  simp [Writer.credit, Writer.pendCount, Writer.new]

theorem new_pendBytes (concurrent : Nat) : (Writer.new concurrent).pendBytes = 0 := by
  simp [Writer.pendBytes, Writer.new]

/-- C1: for any sequence of N write calls followed by close, driven by a caller
that re-invokes the failed operation until it succeeds, under any pattern of
backend failures and any concurrency parameter, every parts list passed to
complete_part consists of the part numbers 0, 1, ..., N-1 in exactly that
order (so a part that failed and was retried still sits at its original
index), and when N is at least 2 a successful complete_part call with that
ordered list occurs. -/
theorem complete_part_receives_ordered_range
    (fuel concurrent : Nat) (cs : List Chunk) (o : Oracle) (w : Writer) (k : Nat)
    (tr : List Call)
    (h : driveRun fuel concurrent cs o = some (w, k, tr)) :
    (∀ uid ps b, Call.complete_part uid ps b ∈ tr →
        ps.map MultipartPart.part_number = List.range cs.length) ∧
    (2 ≤ cs.length →
        ∃ uid ps, Call.complete_part uid ps true ∈ tr ∧
          ps.map MultipartPart.part_number = List.range cs.length) := by
  rcases hdw : driveWrites fuel (Writer.new concurrent) cs o 0 with _ | ⟨⟨w1, k1, tr1⟩⟩
  · simp only [driveRun, hdw] at h
    exact Option.noConfusion h
  · simp only [driveRun, hdw] at h
    rcases hdc : driveClose fuel w1 o k1 with _ | ⟨⟨w2, k2, tr2⟩⟩
    · rw [hdc] at h
      exact Option.noConfusion h
    · rw [hdc] at h
      simp only [Option.some.injEq, Prod.mk.injEq] at h
      obtain ⟨rfl, hk, rfl⟩ := h
      obtain ⟨dbytes, dcredit, dord, dmono, dempty, dcomplete, dnil, dnonnil, dcsome, dtwo⟩ :=
        driveWrites_some cs fuel (Writer.new concurrent) o 0 w1 k1 tr1 hdw
      have hOrd1 : OrderInv w1 := dord (OrderInv_new concurrent)
      have hcred1 : w1.credit = cs.length := by
        rw [dcredit, new_credit]
        omega
      have hst1 : w1.state = .Idle := by
        rcases em (cs = []) with hcs | hcs
        · obtain ⟨rfl, _⟩ := dnil hcs
          rfl
        · exact (dnonnil hcs).1
      obtain ⟨c1, c2, c3, c4⟩ := driveClose_some fuel w1 o k1 w2 k2 tr2 hdc hst1
      have hall : ∀ uid ps b, Call.complete_part uid ps b ∈ tr1 ++ tr2 →
          ps.map MultipartPart.part_number = List.range cs.length := by
        intro uid ps b hmem
        rcases List.mem_append.mp hmem with hmem | hmem
        · exact absurd hmem (dcomplete uid ps b)
        · rw [c4 uid ps b hmem hOrd1, hcred1]
      refine ⟨hall, ?_⟩
      intro h2
      obtain ⟨uid, hu1⟩ := dtwo h2
      obtain ⟨_, _, ps, hmem⟩ := c2 uid hu1
      have hmem2 := List.mem_append_right tr1 hmem
      exact ⟨uid, ps, hmem2, hall uid ps true hmem2⟩

/-- C3: for every run that ends in a successful close, the sum of the sizes of
the successful write_part calls plus the sizes of the successful write_once
calls equals the total number of bytes passed to the write calls; retried
parts re-send the same chunk, so bytes are neither double-counted nor lost. -/
theorem byte_conservation (fuel concurrent : Nat) (cs : List Chunk) (o : Oracle)
    (w : Writer) (k : Nat) (tr : List Call)
    (h : driveRun fuel concurrent cs o = some (w, k, tr)) :
    okBytes tr = totalBytes cs := by
  rcases hdw : driveWrites fuel (Writer.new concurrent) cs o 0 with _ | ⟨⟨w1, k1, tr1⟩⟩
  · simp only [driveRun, hdw] at h
    exact Option.noConfusion h
  · simp only [driveRun, hdw] at h
    rcases hdc : driveClose fuel w1 o k1 with _ | ⟨⟨w2, k2, tr2⟩⟩
    · rw [hdc] at h
      exact Option.noConfusion h
    · rw [hdc] at h
      simp only [Option.some.injEq, Prod.mk.injEq] at h
      obtain ⟨rfl, hk, rfl⟩ := h
      obtain ⟨dbytes, dcredit, dord, dmono, dempty, dcomplete, dnil, dnonnil, dcsome, dtwo⟩ :=
        driveWrites_some cs fuel (Writer.new concurrent) o 0 w1 k1 tr1 hdw
      have hst1 : w1.state = .Idle := by
        rcases em (cs = []) with hcs | hcs
        · obtain ⟨rfl, _⟩ := dnil hcs
          rfl
        · exact (dnonnil hcs).1
      obtain ⟨c1, c2, c3, c4⟩ := driveClose_some fuel w1 o k1 w2 k2 tr2 hdc hst1
      rw [new_pendBytes] at dbytes
      have hpend2 : w2.pendBytes = 0 := by
        rcases hu1 : w1.upload_id with _ | uid
        · obtain ⟨hfe, hce⟩ := c3 hu1
          have hfe1 : w1.futures = [] := by
            refine dempty (fun _ => ?_) hu1
            simp [Writer.new]
          rw [hfe1] at hfe
          simp [Writer.pendBytes, hfe, hce]
        · obtain ⟨hfe, hce, _⟩ := c2 uid hu1
          simp [Writer.pendBytes, hfe, hce]
      rw [okBytes_append]
      omega

end Opendal

namespace Opendal

/-- C2 (violated by the code): after initiate_part fails during a write call,
the writer is left in State::Init holding the already-completed future
(line 275 returns through the question-mark before resetting the state), so a
subsequent write call polls a spent future: it panics (resumed after
completion) and performs no backend call at all, instead of retrying
initiate_part as the spec requires.  The first write is accepted, the second
write surfaces the initiate_part error, and every retry of write then panics
under every oracle. -/
theorem initiate_part_failure_breaks_write_retry :
    (Writer.new 1).poll_write [1] (fun _ => Reply.failure 7) 0
        = (.ok 1, { Writer.new 1 with cache := some [1] }, 0, [])
    ∧ ({ Writer.new 1 with cache := some [1] } : Writer).poll_write [2]
          (fun _ => Reply.failure 7) 0
        = (.err 7, { Writer.new 1 with cache := some [1], state := .InitSpent }, 1,
            [Call.initiate_part false])
    ∧ (∀ (bs : Chunk) (o : Oracle) (k : Nat),
        ({ Writer.new 1 with cache := some [1], state := .InitSpent } : Writer).poll_write bs o k
          = (.panicked .resumedAfterCompletion,
              { Writer.new 1 with cache := some [1], state := .InitSpent }, k, [])) := by
  refine ⟨rfl, rfl, ?_⟩
  intro bs o k
  rfl

/-- C4: a single write on a fresh writer followed by close takes the oneshot
path: the write makes no backend call and accepts all its bytes, and close
awaits exactly one backend call, write_once, whose body is exactly the bytes
of that write; initiate_part, write_part and complete_part are never called. -/
theorem oneshot_single_write (concurrent : Nat) (bs : Chunk) (o o2 : Oracle) (k k2 : Nat) :
    (Writer.new concurrent).poll_write bs o k
        = (.ok bs.length, { Writer.new concurrent with cache := some bs }, k, [])
    ∧ ({ Writer.new concurrent with cache := some bs } : Writer).poll_close o2 k2
        = (match o2 k2 with
            | .success _ =>
                (.ok (), Writer.new concurrent, k2 + 1,
                  [Call.write_once bs.length (.ChunkedBytes bs) true])
            | .failure e =>
                (.err e, { Writer.new concurrent with cache := some bs }, k2 + 1,
                  [Call.write_once bs.length (.ChunkedBytes bs) false])) := by
  refine ⟨rfl, ?_⟩
  cases h : o2 k2 <;>
    simp [Writer.poll_close, closeGo, closeStep, Writer.new, h]

/-- C5: close with no prior write invokes write_once exactly once with size 0
and an empty body, and creates no multipart session: no initiate_part call is
made and upload_id stays none. -/
theorem zero_write_close (concurrent : Nat) (o : Oracle) (k : Nat) :
    (Writer.new concurrent).poll_close o k
        = (match o k with
            | .success _ =>
                (.ok (), Writer.new concurrent, k + 1, [Call.write_once 0 .Empty true])
            | .failure e =>
                (.err e, Writer.new concurrent, k + 1, [Call.write_once 0 .Empty false]))
    ∧ ((Writer.new concurrent).poll_close o k).2.1.upload_id = none := by
  constructor
  · cases h : o k <;>
      simp [Writer.poll_close, closeGo, closeStep, Writer.new, h]
  · cases h : o k <;>
      simp [Writer.poll_close, closeGo, closeStep, Writer.new, h]

/-- C6: when the writer is idle with an upload session, an empty queue and an
empty cache, close awaits only complete_part; on failure it returns that error
with the writer completely unchanged (parts list and upload id preserved), so
a subsequent close dispatches no part task and re-invokes complete_part with
the same upload id and the same ordered parts list. -/
theorem complete_part_failure_preserves_state (uid : String) (parts : List MultipartPart)
    (npn cap : Nat) (o o2 : Oracle) (k k2 : Nat) :
    (⟨.Idle, some uid, parts, none, [], npn, cap⟩ : Writer).poll_close o k
        = (match o k with
            | .success _ =>
                (.ok (), ⟨.Idle, some uid, parts, none, [], npn, cap⟩, k + 1,
                  [Call.complete_part uid parts true])
            | .failure e =>
                (.err e, ⟨.Idle, some uid, parts, none, [], npn, cap⟩, k + 1,
                  [Call.complete_part uid parts false]))
    ∧ ((⟨.Idle, some uid, parts, none, [], npn, cap⟩ : Writer).poll_close o2 k2).2.2.2
        = [Call.complete_part uid parts ((o2 k2).isSuccess)] := by
  constructor
  · cases h : o k <;>
      simp [Writer.poll_close, closeGo, closeStep, h]
  · cases h : o2 k2 <;>
      simp [Writer.poll_close, closeGo, closeStep, Reply.isSuccess, h]

/-- Abort behaviour from the Idle state: with no upload session it returns
success and makes no backend call; with a session it first discards all
queued tasks without awaiting them, then invokes abort_part exactly once and
returns its result, the writer ending Idle whether abort_part succeeded or
failed. -/
theorem abort_clears_queue_and_calls_abort_once
    (uid : String) (parts : List MultipartPart) (cache : Option Chunk)
    (futs : List WritePartFuture) (npn cap : Nat) (o : Oracle) (k : Nat) :
    (⟨.Idle, none, parts, cache, futs, npn, cap⟩ : Writer).poll_abort o k
        = (.ok (), ⟨.Idle, none, parts, cache, futs, npn, cap⟩, k, [])
    ∧ (⟨.Idle, some uid, parts, cache, futs, npn, cap⟩ : Writer).poll_abort o k
        = (match o k with
            | .success _ =>
                (.ok (), ⟨.Idle, some uid, parts, cache, [], npn, cap⟩, k + 1,
                  [Call.abort_part uid true])
            | .failure e =>
                (.err e, ⟨.Idle, some uid, parts, cache, [], npn, cap⟩, k + 1,
                  [Call.abort_part uid false])) := by
  constructor
  · rfl
  · cases h : o k <;> simp [Writer.poll_abort, h]

end Opendal

namespace Opendal

theorem writeGo_dispatch_no_err (fuel : Nat) (w : Writer) (bs : Chunk) (o : Oracle) (k : Nat)
    (e : Nat) (hst : w.state = .Idle) (hu : ∃ uid, w.upload_id = some uid)
    (hlt : w.futures.length < w.capacity) :
    (writeGo fuel w bs o k).1 ≠ .err e := by
  obtain ⟨uid, hu⟩ := hu
  cases fuel with
  | zero => simp [writeGo]
  | succ fuel =>
    rcases writeStep_eq w bs o k with
      ⟨hst2, hstep⟩ | ⟨uid2, hst2, hu2, hlt2, hc, hstep⟩ | ⟨uid2, c, hst2, hu2, hlt2, hc, hstep⟩
      | ⟨uid2, hst2, hu2, hlt2, hf, hstep⟩ | ⟨uid2, hd, t, etag, hst2, hu2, hlt2, hf, hok, hstep⟩
      | ⟨uid2, hd, t, e2, hst2, hu2, hlt2, hf, hok, hstep⟩ | ⟨hst2, hu2, hc, hstep⟩
      | ⟨c, uid3, hst2, hu2, hc, hok, hstep⟩ | ⟨c, e2, hst2, hu2, hc, hok, hstep⟩
    · rw [hst] at hst2
      cases hst2
    · rw [writeGo_succ_ret fuel w bs o k _ _ _ _ hstep]
      simp
    · rw [writeGo_succ_ret fuel w bs o k _ _ _ _ hstep]
      simp
    · exact absurd hlt hlt2
    · exact absurd hlt hlt2
    · exact absurd hlt hlt2
    · rw [hu] at hu2
      cases hu2
    · rw [hu] at hu2
      cases hu2
    · rw [hu] at hu2
      cases hu2

theorem writeGo_err_head (fuel : Nat) (w : Writer) (uid : String) (bs : Chunk) (o : Oracle)
    (k : Nat) (e : Nat)
    (hst : w.state = .Idle) (hu : w.upload_id = some uid)
    (hlen : w.futures.length ≤ w.capacity)
    (hres : (writeGo fuel w bs o k).1 = .err e) :
    (writeGo fuel w bs o k).2.1.parts = w.parts
    ∧ (writeGo fuel w bs o k).2.1.next_part_number = w.next_part_number
    ∧ (writeGo fuel w bs o k).2.1.cache = w.cache
    ∧ (writeGo fuel w bs o k).2.1.upload_id = some uid
    ∧ ∃ hd t, w.futures = hd :: t
        ∧ (writeGo fuel w bs o k).2.1.futures = ⟨uid, hd.part_number, hd.bytes⟩ :: t
        ∧ o k = .failure e
        ∧ (writeGo fuel w bs o k).2.2.2
            = [Call.write_part hd.upload_id hd.part_number hd.bytes.length
                (.ChunkedBytes hd.bytes) false] := by
  cases fuel with
  | zero => simp [writeGo] at hres
  | succ fuel =>
    rcases writeStep_eq w bs o k with
      ⟨hst2, hstep⟩ | ⟨uid2, hst2, hu2, hlt2, hc, hstep⟩ | ⟨uid2, c, hst2, hu2, hlt2, hc, hstep⟩
      | ⟨uid2, hst2, hu2, hlt2, hf, hstep⟩ | ⟨uid2, hd, t, etag, hst2, hu2, hlt2, hf, hok, hstep⟩
      | ⟨uid2, hd, t, e2, hst2, hu2, hlt2, hf, hok, hstep⟩ | ⟨hst2, hu2, hc, hstep⟩
      | ⟨c, uid3, hst2, hu2, hc, hok, hstep⟩ | ⟨c, e2, hst2, hu2, hc, hok, hstep⟩
    · rw [hst] at hst2
      cases hst2
    · rw [writeGo_succ_ret fuel w bs o k _ _ _ _ hstep] at hres
      simp at hres
    · rw [writeGo_succ_ret fuel w bs o k _ _ _ _ hstep] at hres
      simp at hres
    · rw [writeGo_succ_ret fuel w bs o k _ _ _ _ hstep] at hres
      simp at hres
    · exfalso
      rw [writeGo_succ_next fuel w bs o k _ _ _ hstep] at hres
      simp only at hres
      refine writeGo_dispatch_no_err fuel
        { w with parts := w.parts ++ [⟨hd.part_number, etag⟩], futures := t } bs o (k + 1) e
        (by simpa using hst) ⟨uid, by simpa using hu⟩ ?_ hres
      have : w.futures.length = t.length + 1 := by rw [hf]; rfl
      simp only []
      omega
    · rw [writeGo_succ_ret fuel w bs o k _ _ _ _ hstep] at hres ⊢
      simp only [Res.err.injEq] at hres
      rw [hu] at hu2
      obtain rfl := Option.some.injEq .. |>.mp hu2
      exact ⟨rfl, rfl, rfl, by simpa using hu, hd, t, hf, rfl, by rw [hok, hres], by rw [hres]⟩
    · rw [hu] at hu2
      cases hu2
    · rw [hu] at hu2
      cases hu2
    · rw [hu] at hu2
      cases hu2

/-- C9: when a write call returns an error because the queued head part task
failed, the writer is otherwise untouched: the completed-parts list, the
next-part-number counter, the buffered pending chunk and the upload id are
exactly as before the call, and the only queue mutation is replacing the
failed head task with a fresh task for the same part number and the same
bytes (the single write_part failure of the call). -/
theorem write_error_frame (w : Writer) (uid : String) (bs : Chunk) (o : Oracle) (k : Nat)
    (e : Nat) (w' : Writer) (k' : Nat) (tr : List Call)
    (hst : w.state = .Idle) (hu : w.upload_id = some uid)
    (hlen : w.futures.length ≤ w.capacity)
    (h : w.poll_write bs o k = (.err e, w', k', tr)) :
    w'.parts = w.parts
    ∧ w'.next_part_number = w.next_part_number
    ∧ w'.cache = w.cache
    ∧ w'.upload_id = some uid
    ∧ ∃ hd t, w.futures = hd :: t
        ∧ w'.futures = ⟨uid, hd.part_number, hd.bytes⟩ :: t
        ∧ o k = .failure e
        ∧ tr = [Call.write_part hd.upload_id hd.part_number hd.bytes.length
            (.ChunkedBytes hd.bytes) false] := by
  rw [Writer.poll_write] at h
  have hres : (writeGo (w.futures.length + 3) w bs o k).1 = .err e := by rw [h]
  obtain ⟨g1, g2, g3, g4, hd, t, hf, g5, g6, g7⟩ :=
    writeGo_err_head (w.futures.length + 3) w uid bs o k e hst hu hlen hres
  rw [h] at g1 g2 g3 g4 g5 g7
  exact ⟨g1, g2, g3, g4, hd, t, hf, g5, g6, g7⟩

end Opendal

namespace Opendal

theorem writeGo_cacheInv : ∀ (fuel : Nat) (w : Writer) (bs : Chunk) (o : Oracle) (k : Nat),
    CacheInv w → CacheInv (writeGo fuel w bs o k).2.1 := by
  intro fuel
  induction fuel with
  | zero => intro w bs o k hinv; simpa [writeGo] using hinv
  | succ fuel ih =>
    intro w bs o k hinv
    rcases writeStep_eq w bs o k with
      ⟨hst, hstep⟩ | ⟨uid, hst, hu, hlt, hc, hstep⟩ | ⟨uid, c, hst, hu, hlt, hc, hstep⟩
      | ⟨uid, hst, hu, hlt, hf, hstep⟩ | ⟨uid, hd, t, etag, hst, hu, hlt, hf, hok, hstep⟩
      | ⟨uid, hd, t, e, hst, hu, hlt, hf, hok, hstep⟩ | ⟨hst, hu, hc, hstep⟩
      | ⟨c, uid2, hst, hu, hc, hok, hstep⟩ | ⟨c, e, hst, hu, hc, hok, hstep⟩
    · rw [writeGo_succ_ret fuel w bs o k _ _ _ _ hstep]
      exact hinv
    · rw [writeGo_succ_ret fuel w bs o k _ _ _ _ hstep]
      exact hinv
    · rw [writeGo_succ_ret fuel w bs o k _ _ _ _ hstep]
      intro _
      rfl
    · rw [writeGo_succ_ret fuel w bs o k _ _ _ _ hstep]
      exact hinv
    · rw [writeGo_succ_next fuel w bs o k _ _ _ hstep]
      simp only
      refine ih _ bs o (k + 1) ?_
      intro hsome
      exact hinv (by simpa using hsome)
    · rw [writeGo_succ_ret fuel w bs o k _ _ _ _ hstep]
      intro _
      exact hinv (by simp [hu])
    · rw [writeGo_succ_ret fuel w bs o k _ _ _ _ hstep]
      intro _
      rfl
    · rw [writeGo_succ_next fuel w bs o k _ _ _ hstep]
      simp only
      refine ih _ bs o (k + 1) ?_
      intro _
      simpa using congrArg Option.isSome hc
    · rw [writeGo_succ_ret fuel w bs o k _ _ _ _ hstep]
      intro _
      simpa using congrArg Option.isSome hc

theorem writeGo_no_cacheOccupied : ∀ (fuel : Nat) (w : Writer) (bs : Chunk) (o : Oracle)
    (k : Nat), (writeGo fuel w bs o k).1 ≠ .panicked .cacheOccupied := by
  intro fuel
  induction fuel with
  | zero => intro w bs o k; simp [writeGo]
  | succ fuel ih =>
    intro w bs o k
    rcases writeStep_eq w bs o k with
      ⟨hst, hstep⟩ | ⟨uid, hst, hu, hlt, hc, hstep⟩ | ⟨uid, c, hst, hu, hlt, hc, hstep⟩
      | ⟨uid, hst, hu, hlt, hf, hstep⟩ | ⟨uid, hd, t, etag, hst, hu, hlt, hf, hok, hstep⟩
      | ⟨uid, hd, t, e, hst, hu, hlt, hf, hok, hstep⟩ | ⟨hst, hu, hc, hstep⟩
      | ⟨c, uid2, hst, hu, hc, hok, hstep⟩ | ⟨c, e, hst, hu, hc, hok, hstep⟩ <;>
      first
      | (rw [writeGo_succ_ret fuel w bs o k _ _ _ _ hstep]; simp)
      | (rw [writeGo_succ_next fuel w bs o k _ _ _ hstep]; simp only; exact ih _ bs o (k + 1))

theorem writeGo_no_pendingMissing : ∀ (fuel : Nat) (w : Writer) (bs : Chunk) (o : Oracle)
    (k : Nat), CacheInv w → (writeGo fuel w bs o k).1 ≠ .panicked .pendingWriteMustExist := by
  intro fuel
  induction fuel with
  | zero => intro w bs o k _; simp [writeGo]
  | succ fuel ih =>
    intro w bs o k hinv
    rcases writeStep_eq w bs o k with
      ⟨hst, hstep⟩ | ⟨uid, hst, hu, hlt, hc, hstep⟩ | ⟨uid, c, hst, hu, hlt, hc, hstep⟩
      | ⟨uid, hst, hu, hlt, hf, hstep⟩ | ⟨uid, hd, t, etag, hst, hu, hlt, hf, hok, hstep⟩
      | ⟨uid, hd, t, e, hst, hu, hlt, hf, hok, hstep⟩ | ⟨hst, hu, hc, hstep⟩
      | ⟨c, uid2, hst, hu, hc, hok, hstep⟩ | ⟨c, e, hst, hu, hc, hok, hstep⟩
    · rw [writeGo_succ_ret fuel w bs o k _ _ _ _ hstep]
      simp
    · exfalso
      have : w.cache.isSome := hinv (by simp [hu])
      rw [hc] at this
      cases this
    · rw [writeGo_succ_ret fuel w bs o k _ _ _ _ hstep]
      simp
    · rw [writeGo_succ_ret fuel w bs o k _ _ _ _ hstep]
      simp
    · rw [writeGo_succ_next fuel w bs o k _ _ _ hstep]
      simp only
      refine ih _ bs o (k + 1) ?_
      intro hsome
      exact hinv (by simpa using hsome)
    · rw [writeGo_succ_ret fuel w bs o k _ _ _ _ hstep]
      simp
    · rw [writeGo_succ_ret fuel w bs o k _ _ _ _ hstep]
      simp
    · rw [writeGo_succ_next fuel w bs o k _ _ _ hstep]
      simp only
      refine ih _ bs o (k + 1) ?_
      intro _
      simpa using congrArg Option.isSome hc
    · rw [writeGo_succ_ret fuel w bs o k _ _ _ _ hstep]
      simp

theorem writeReachable_cacheInv (concurrent : Nat) (w : Writer)
    (hr : WriteReachable concurrent w) : CacheInv w := by
  induction hr with
  | new => intro h; simp [Writer.new] at h
  | write w2 bs o k _ ih =>
    simpa [Writer.poll_write] using writeGo_cacheInv (w2.futures.length + 3) w2 bs o k ih

/-- C10: under the caller contract (one logical caller, write never invoked
after close or abort, i.e. over all states reachable through write calls
alone), the single-slot buffer assertions of poll_write never fire: fill_cache
is only ever reached with an empty slot (its assert never panics), and the
cache-take expect "pending write must exist" never panics because the slot is
always occupied when an upload session exists. -/
theorem cache_slot_asserts_never_fire (concurrent : Nat) (w : Writer)
    (hr : WriteReachable concurrent w) (bs : Chunk) (o : Oracle) (k : Nat) :
    (w.poll_write bs o k).1 ≠ .panicked .cacheOccupied
    ∧ (w.poll_write bs o k).1 ≠ .panicked .pendingWriteMustExist := by
  have hinv := writeReachable_cacheInv concurrent w hr
  constructor
  · simpa [Writer.poll_write] using
      writeGo_no_cacheOccupied (w.futures.length + 3) w bs o k
  · simpa [Writer.poll_write] using
      writeGo_no_pendingMissing (w.futures.length + 3) w bs o k hinv

end Opendal

namespace Opendal

theorem drainPush_cap (w : Writer) (uid : String) :
    (drainPush w uid).capacity = w.capacity := by
  rcases drainPush_spec w uid with ⟨c, hlt, hc, hdp⟩ | ⟨_, hdp⟩ <;> rw [hdp]

theorem drainPush_len (w : Writer) (uid : String)
    (hlen : w.futures.length ≤ w.capacity) :
    (drainPush w uid).futures.length ≤ w.capacity := by
  rcases drainPush_spec w uid with ⟨c, hlt, hc, hdp⟩ | ⟨_, hdp⟩ <;> rw [hdp]
  · simp only [List.length_append, List.length_cons, List.length_nil]
    omega
  · exact hlen

theorem writeGo_cap_len : ∀ (fuel : Nat) (w : Writer) (bs : Chunk) (o : Oracle) (k : Nat),
    (writeGo fuel w bs o k).2.1.capacity = w.capacity
    ∧ (w.futures.length ≤ w.capacity →
        (writeGo fuel w bs o k).2.1.futures.length ≤ w.capacity) := by
  intro fuel
  induction fuel with
  | zero => intro w bs o k; simp [writeGo]
  | succ fuel ih =>
    intro w bs o k
    rcases writeStep_eq w bs o k with
      ⟨hst, hstep⟩ | ⟨uid, hst, hu, hlt, hc, hstep⟩ | ⟨uid, c, hst, hu, hlt, hc, hstep⟩
      | ⟨uid, hst, hu, hlt, hf, hstep⟩ | ⟨uid, hd, t, etag, hst, hu, hlt, hf, hok, hstep⟩
      | ⟨uid, hd, t, e, hst, hu, hlt, hf, hok, hstep⟩ | ⟨hst, hu, hc, hstep⟩
      | ⟨c, uid2, hst, hu, hc, hok, hstep⟩ | ⟨c, e, hst, hu, hc, hok, hstep⟩
    · rw [writeGo_succ_ret fuel w bs o k _ _ _ _ hstep]
      exact ⟨rfl, id⟩
    · rw [writeGo_succ_ret fuel w bs o k _ _ _ _ hstep]
      exact ⟨rfl, id⟩
    · rw [writeGo_succ_ret fuel w bs o k _ _ _ _ hstep]
      refine ⟨rfl, ?_⟩
      intro _
      simp only [List.length_append, List.length_cons, List.length_nil]
      omega
    · rw [writeGo_succ_ret fuel w bs o k _ _ _ _ hstep]
      exact ⟨rfl, id⟩
    · rw [writeGo_succ_next fuel w bs o k _ _ _ hstep]
      simp only
      obtain ⟨ihc, ihl⟩ :=
        ih { w with parts := w.parts ++ [⟨hd.part_number, etag⟩], futures := t } bs o (k + 1)
      refine ⟨by rw [ihc], ?_⟩
      intro hlen
      have hlen2 : t.length ≤ w.capacity := by
        rw [hf] at hlen
        simp only [List.length_cons] at hlen
        omega
      simpa using ihl hlen2
    · rw [writeGo_succ_ret fuel w bs o k _ _ _ _ hstep]
      refine ⟨rfl, ?_⟩
      intro hlen
      rw [hf] at hlen
      simpa using hlen
    · rw [writeGo_succ_ret fuel w bs o k _ _ _ _ hstep]
      exact ⟨rfl, id⟩
    · rw [writeGo_succ_next fuel w bs o k _ _ _ hstep]
      simp only
      obtain ⟨ihc, ihl⟩ := ih { w with upload_id := some uid2 } bs o (k + 1)
      exact ⟨by rw [ihc], fun hlen => by simpa using ihl (by simpa using hlen)⟩
    · rw [writeGo_succ_ret fuel w bs o k _ _ _ _ hstep]
      exact ⟨rfl, id⟩

theorem closeGo_cap_len : ∀ (fuel : Nat) (w : Writer) (o : Oracle) (k : Nat),
    (closeGo fuel w o k).2.1.capacity = w.capacity
    ∧ (w.futures.length ≤ w.capacity →
        (closeGo fuel w o k).2.1.futures.length ≤ w.capacity) := by
  intro fuel
  induction fuel with
  | zero => intro w o k; simp [closeGo]
  | succ fuel ih =>
    intro w o k
    rcases closeStep_eq w o k with
      ⟨uid, sx, hu, hf, hc, hok, hstep⟩ | ⟨uid, e2, hu, hf, hc, hok, hstep⟩
      | ⟨uid, hu, hne, hf, hstep⟩ | ⟨uid, hd, t, etag, hu, hne, hf, hok, hstep⟩
      | ⟨uid, hd, t, e2, hu, hne, hf, hok, hstep⟩ | ⟨c, sx, hu, hc, hok, hstep⟩
      | ⟨c, e2, hu, hc, hok, hstep⟩ | ⟨sx, hu, hc, hok, hstep⟩ | ⟨e2, hu, hc, hok, hstep⟩
    · rw [closeGo_succ_ret fuel w o k _ _ _ _ hstep]
      exact ⟨rfl, id⟩
    · rw [closeGo_succ_ret fuel w o k _ _ _ _ hstep]
      exact ⟨rfl, id⟩
    · rw [closeGo_succ_ret fuel w o k _ _ _ _ hstep]
      refine ⟨drainPush_cap w uid, ?_⟩
      intro _
      rw [hf]
      simp
    · rw [closeGo_succ_next fuel w o k _ _ _ hstep]
      simp only
      obtain ⟨ihc, ihl⟩ :=
        ih { drainPush w uid with
              parts := (drainPush w uid).parts ++ [⟨hd.part_number, etag⟩]
              futures := t } o (k + 1)
      refine ⟨by rw [ihc]; simpa using drainPush_cap w uid, ?_⟩
      intro hlen
      have hlen2 : t.length ≤ w.capacity := by
        have := drainPush_len w uid hlen
        rw [hf] at this
        simp only [List.length_cons] at this
        omega
      have hlen3 : t.length ≤ (drainPush w uid).capacity := by
        rw [drainPush_cap w uid]
        exact hlen2
      simpa [drainPush_cap] using ihl (by simpa using hlen3)
    · rw [closeGo_succ_ret fuel w o k _ _ _ _ hstep]
      refine ⟨by simpa using drainPush_cap w uid, ?_⟩
      intro hlen
      have := drainPush_len w uid hlen
      rw [hf] at this
      simpa using this
    · rw [closeGo_succ_ret fuel w o k _ _ _ _ hstep]
      exact ⟨rfl, id⟩
    · rw [closeGo_succ_ret fuel w o k _ _ _ _ hstep]
      exact ⟨rfl, id⟩
    · rw [closeGo_succ_ret fuel w o k _ _ _ _ hstep]
      exact ⟨rfl, id⟩
    · rw [closeGo_succ_ret fuel w o k _ _ _ _ hstep]
      exact ⟨rfl, id⟩

theorem poll_abort_cap_len (w : Writer) (o : Oracle) (k : Nat) :
    (w.poll_abort o k).2.1.capacity = w.capacity
    ∧ (w.futures.length ≤ w.capacity →
        (w.poll_abort o k).2.1.futures.length ≤ w.capacity) := by
  cases hst : w.state with
  | InitSpent => simp [Writer.poll_abort, hst]
  | Idle =>
    cases hu : w.upload_id with
    | some uid =>
      cases hok : o k <;> simp [Writer.poll_abort, hst, hu, hok]
    | none => simp [Writer.poll_abort, hst, hu]

/-- C7: the task queue of a writer built with concurrency parameter concurrent
has capacity max(1, concurrent), and across every sequence of write, close and
abort calls (with any payloads and backend outcomes, including the push_front
re-queues done for retries) the number of queued part-upload tasks never
exceeds that capacity; every push into the queue is guarded by the
has_remaining capacity check, so the bound also holds at the instant of each
push. -/
theorem concurrency_bound (concurrent : Nat) :
    (Writer.new concurrent).capacity = Nat.max 1 concurrent
    ∧ ∀ w, Reachable concurrent w →
        w.capacity = Nat.max 1 concurrent ∧ w.futures.length ≤ w.capacity := by
  refine ⟨rfl, ?_⟩
  intro w hr
  induction hr with
  | new => exact ⟨rfl, by simp [Writer.new]⟩
  | write w2 bs o k _ ih =>
    obtain ⟨ihcap, ihlen⟩ := ih
    obtain ⟨gcap, glen⟩ := writeGo_cap_len (w2.futures.length + 3) w2 bs o k
    rw [Writer.poll_write]
    exact ⟨by rw [gcap, ihcap], by rw [gcap]; exact glen ihlen⟩
  | close w2 o k _ ih =>
    obtain ⟨ihcap, ihlen⟩ := ih
    cases hst : w2.state with
    | InitSpent => simpa [Writer.poll_close, hst] using ⟨ihcap, ihlen⟩
    | Idle =>
      obtain ⟨gcap, glen⟩ := closeGo_cap_len (w2.futures.length + 3) w2 o k
      simp only [Writer.poll_close, hst]
      exact ⟨by rw [gcap, ihcap], by rw [gcap]; exact glen ihlen⟩
  | abort w2 o k _ ih =>
    obtain ⟨ihcap, ihlen⟩ := ih
    obtain ⟨gcap, glen⟩ := poll_abort_cap_len w2 o k
    exact ⟨by rw [gcap, ihcap], by rw [gcap]; exact glen ihlen⟩

end Opendal

namespace Opendal

/-- Witness for the ordering theorem: a concrete three-write run with injected
write_part and complete_part failures ends with a successful complete_part
whose parts list is numbered 0, 1, 2 in order. -/
theorem complete_part_receives_ordered_range_witness :
    ∃ w k tr, driveRun 12 1 [[1, 2], [3], [4, 5, 6]] witnessOracle = some (w, k, tr) ∧
      ∃ uid ps, Call.complete_part uid ps true ∈ tr ∧
        ps.map MultipartPart.part_number = List.range 3 := by
  refine ⟨_, _, _, rfl, ?_⟩
  exact (complete_part_receives_ordered_range 12 1 [[1, 2], [3], [4, 5, 6]] witnessOracle
    _ _ _ rfl).2 (by decide)

/-- Witness for byte conservation: the same concrete run uploads exactly the
six bytes that were written, counting only successful backend calls. -/
theorem byte_conservation_witness :
    ∃ w k tr, driveRun 12 1 [[1, 2], [3], [4, 5, 6]] witnessOracle = some (w, k, tr) ∧
      okBytes tr = 6 := by
  refine ⟨_, _, _, rfl, ?_⟩
  exact (byte_conservation 12 1 [[1, 2], [3], [4, 5, 6]] witnessOracle _ _ _ rfl).trans
    (by decide)

/-- Witness for the concurrency bound at a concrete reachable state: after one
write on a writer built with concurrent equal to 2, the queue length is within
the capacity max 1 2. -/
theorem concurrency_bound_witness :
    ((Writer.new 2).poll_write [5] (fun _ => Reply.success "u") 0).2.1.capacity
        = Nat.max 1 2
    ∧ ((Writer.new 2).poll_write [5] (fun _ => Reply.success "u") 0).2.1.futures.length
        ≤ ((Writer.new 2).poll_write [5] (fun _ => Reply.success "u") 0).2.1.capacity := by
  obtain ⟨h1, h2⟩ := (concurrency_bound 2).2 _ (Reachable.write _ [5] (fun _ => Reply.success "u") 0
    Reachable.new)
  exact ⟨h1, by rw [h1]; exact h1 ▸ h2⟩

/-- Witness for the write-error frame property at a concrete writer whose only
queued task fails: the head is re-queued with the same part number and
bytes. -/
theorem write_error_frame_witness :
    ∃ hd t,
      (⟨.Idle, some "u", [], some [9], [⟨"u", 0, [1, 2]⟩], 1, 1⟩ : Writer).futures = hd :: t
      ∧ (⟨.Idle, some "u", [], some [9], [⟨"u", 0, [1, 2]⟩], 1, 1⟩ : Writer).futures
          = ⟨"u", hd.part_number, hd.bytes⟩ :: t := by
  obtain ⟨_, _, _, _, hd, t, hf, hsw, _, _⟩ :=
    write_error_frame (⟨.Idle, some "u", [], some [9], [⟨"u", 0, [1, 2]⟩], 1, 1⟩ : Writer)
      "u" [7] (fun _ => Reply.failure 4) 0 4
      (⟨.Idle, some "u", [], some [9], [⟨"u", 0, [1, 2]⟩], 1, 1⟩ : Writer) 1
      [Call.write_part "u" 0 2 (.ChunkedBytes [1, 2]) false]
      rfl rfl (by decide) (by decide)
  exact ⟨hd, t, hf, hsw⟩

/-- Witness for the assert-safety theorem at the fresh writer. -/
theorem cache_slot_asserts_never_fire_witness :
    ((Writer.new 1).poll_write [3] (fun _ => Reply.success "u") 0).1
        ≠ Res.panicked .cacheOccupied
    ∧ ((Writer.new 1).poll_write [3] (fun _ => Reply.success "u") 0).1
        ≠ Res.panicked .pendingWriteMustExist :=
  cache_slot_asserts_never_fire 1 (Writer.new 1) WriteReachable.new [3]
    (fun _ => Reply.success "u") 0

end Opendal

namespace Opendal

/-- C8 (violated by the code): abort before any upload session exists is
supposed to return success with no backend call, but the writer can reach a
no-session state in which abort panics instead.  After a first accepted write
and a second write whose initiate_part call failed, upload_id is still none
(no upload session was ever created), yet the writer was left in State::Init
by the question-mark on line 275; poll_abort then matches State::Init and
hits the unreachable! on line 394: under every oracle it panics, performs no
backend call and never returns success.  From the Idle state the claimed
behaviour does hold (see the abort theorem above); this failing state is the
same root slip as the initiate_part retry bug. -/
theorem abort_panics_in_no_session_init_state :
    (Writer.new 1).poll_write [1] (fun _ => Reply.failure 7) 0
        = (.ok 1, { Writer.new 1 with cache := some [1] }, 0, [])
    ∧ ({ Writer.new 1 with cache := some [1] } : Writer).poll_write [2]
          (fun _ => Reply.failure 7) 0
        = (.err 7, { Writer.new 1 with cache := some [1], state := .InitSpent }, 1,
            [Call.initiate_part false])
    ∧ ({ Writer.new 1 with cache := some [1], state := .InitSpent } : Writer).upload_id = none
    ∧ (∀ (o : Oracle) (k : Nat),
        ({ Writer.new 1 with cache := some [1], state := .InitSpent } : Writer).poll_abort o k
          = (.panicked .unreachableInit,
              { Writer.new 1 with cache := some [1], state := .InitSpent }, k, [])) := by
  refine ⟨rfl, rfl, rfl, ?_⟩
  intro o k
  rfl

end Opendal
